import Mathlib

/-!
Verification development for the arbitrage-detection core of the
`revm-simulation` crate (`src/arb`): tokens, pools, directed swaps,
constant-product quotes, cycles with rotation canonicalization, the
bisection optimizer, and the incremental world-update driver.

Shallow embedding conventions:
* `U256` values are `Nat` with every arithmetic operation reduced
  modulo `2 ^ 256` (release-mode wrapping semantics of the `ruint`
  integers used by the crate); `I256` values are `Int` with explicit
  saturation where the source saturates.
* Rust `Option` fields stay `Option`; fallible constructors return
  `Except String`.
* The custom `PartialEq`/`Ord`/`Hash` implementations of the source
  (which deliberately ignore reserves) are embedded as explicit
  boolean relations (`Swap.eqv`, `Swap.lt`, …), never as Lean's
  structural equality.
* The f64-computed `log_rate` cache of `Swap` is not modeled: it is
  produced by IEEE-754 double arithmetic (`approx_log10`, `f64::log10`,
  a truncating `as i64` cast) and no claim handled here depends on its
  value.  Equality, ordering and hashing of swaps ignore it in the
  source as well.
-/

set_option maxHeartbeats 1000000
set_option maxRecDepth 8000

namespace Revm

/-- `2 ^ 256`, the modulus of the crate's `U256` arithmetic. -/
def U256MOD : Nat := 2 ^ 256

/-- Wrapping `U256` addition. -/
def addW (a b : Nat) : Nat := (a + b) % U256MOD

/-- Wrapping `U256` multiplication. -/
def mulW (a b : Nat) : Nat := (a * b) % U256MOD

/-- Wrapping `U256` subtraction (`a - b` modulo `2 ^ 256`). -/
def subW (a b : Nat) : Nat := (U256MOD + a - b) % U256MOD

/-- `2 ^ 255`: first `U256` value reinterpreted as negative by `I256::from_raw`. -/
def I256MIN : Int := -(2 ^ 255)

/-- Largest `I256` value. -/
def I256MAX : Int := 2 ^ 255 - 1

/-- `I256::from_raw`: reinterpret a `U256` bit pattern as a signed 256-bit value. -/
def i256FromRaw (u : Nat) : Int :=
  if u < 2 ^ 255 then (u : Int) else (u : Int) - 2 ^ 256

/-- `I256::saturating_sub`. -/
def i256SatSub (a b : Int) : Int :=
  max I256MIN (min I256MAX (a - b))

/-- `U256::saturating_mul`. -/
def u256SatMul (a b : Nat) : Nat :=
  min (U256MOD - 1) (a * b)

/-- Token identity: a 20-byte address, modeled as a `Nat` ordered numerically
(byte order and numeric order on addresses agree). From `src/arb/token.rs`. -/
abbrev TokenId := Nat

/-- Pool identity: a 20-byte address. From `src/arb/pool.rs`. -/
abbrev PoolId := Nat

/-- Swap direction, `src/arb/swap.rs` (`ZeroForOne < OneForZero` in the
derived `Ord`). -/
inductive Direction where
  | zeroForOne
  | oneForZero
deriving DecidableEq, Repr

/-- Rank used to embed the derived `Ord` on `Direction`. -/
def Direction.rank : Direction → Nat
  | .zeroForOne => 0
  | .oneForZero => 1

/-- `Direction::is_opposite` from `src/arb/swap.rs`. -/
def Direction.isOpposite (a b : Direction) : Bool :=
  (a == .oneForZero && b == .zeroForOne) || (a == .zeroForOne && b == .oneForZero)

/-- `SwapId` from `src/arb/swap.rs`: pool address plus direction, with the
derived lexicographic `Ord`. -/
structure SwapId where
  poolId : PoolId
  direction : Direction
deriving DecidableEq, Repr

/-- `Pool` from `src/arb/pool.rs`. -/
structure Pool where
  id : PoolId
  token0 : TokenId
  token1 : TokenId
  reserve0 : Option Nat
  reserve1 : Option Nat
deriving DecidableEq, Repr

/-- `Pool::new` from `src/arb/pool.rs`: a `const fn` that stores its five
arguments unconditionally — it performs no validation at all. -/
def Pool.new (id : PoolId) (token0 token1 : TokenId)
    (reserve0 reserve1 : Option Nat) : Pool :=
  { id := id, token0 := token0, token1 := token1,
    reserve0 := reserve0, reserve1 := reserve1 }

/-- `Swap` from `src/arb/swap.rs`. The f64 `log_rate` cache is not modeled
(see the header comment); the source's equality, ordering and hashing ignore
it as well as the reserves. -/
structure Swap where
  id : SwapId
  tokenIn : TokenId
  tokenOut : TokenId
  reserveIn : Option Nat
  reserveOut : Option Nat
deriving DecidableEq, Repr

instance : Inhabited Swap :=
  ⟨{ id := ⟨0, .zeroForOne⟩, tokenIn := 0, tokenOut := 1,
     reserveIn := none, reserveOut := none }⟩

/-- `Swap::has_reserves`. -/
def Swap.hasReserves (s : Swap) : Bool :=
  s.reserveIn.isSome && s.reserveOut.isSome

/-- `Swap::reserve_in` (the source asserts reserves are present; we take the
value with a default of 0, and theorems carry the reserves hypothesis). -/
def Swap.reserveInV (s : Swap) : Nat := s.reserveIn.getD 0

/-- `Swap::reserve_out`, same convention as `Swap.reserveInV`. -/
def Swap.reserveOutV (s : Swap) : Nat := s.reserveOut.getD 0

/-- `Swap::new` from `src/arb/swap.rs`: fails iff `token_in == token_out`. -/
def Swap.new (id : SwapId) (tokenIn tokenOut : TokenId)
    (reserveIn reserveOut : Option Nat) : Except String Swap :=
  if tokenIn = tokenOut then
    .error "Swap token0 and token1 must be different"
  else
    .ok { id := id, tokenIn := tokenIn, tokenOut := tokenOut,
          reserveIn := reserveIn, reserveOut := reserveOut }

/-- `Swap::forward`: the `token0 -> token1` side of a pool. The source calls
`Swap::new(..).unwrap()`, panicking on a same-token pool; we return the
`Inhabited` default in that (out-of-contract) case. -/
def Swap.forward (p : Pool) : Swap :=
  (Swap.new ⟨p.id, .zeroForOne⟩ p.token0 p.token1 p.reserve0 p.reserve1).toOption.getD default

/-- `Swap::reverse`: the `token1 -> token0` side of a pool. -/
def Swap.reverse (p : Pool) : Swap :=
  (Swap.new ⟨p.id, .oneForZero⟩ p.token1 p.token0 p.reserve1 p.reserve0).toOption.getD default

/-- `Swap::is_reciprocal`: same pool, opposite directions. -/
def Swap.isReciprocal (s t : Swap) : Bool :=
  s.id.poolId == t.id.poolId && s.id.direction.isOpposite t.id.direction

/-- The data consumed by the source's `PartialEq`, `Ord` and `Hash` on
`Swap`: `(token_in, token_out, pool_id, direction)`. Reserves are excluded. -/
def Swap.key (s : Swap) : Nat × Nat × Nat × Nat :=
  (s.tokenIn, s.tokenOut, s.id.poolId, s.id.direction.rank)

/-- The source's `Swap` `PartialEq`: token endpoints and id only. -/
def Swap.eqv (s t : Swap) : Bool :=
  s.tokenIn == t.tokenIn && s.tokenOut == t.tokenOut && s.id == t.id

/-- The source's `Swap` `Ord`: lexicographic on
`(token_in, token_out, id)` with `id = (pool_id, direction)`. -/
def Swap.lt (s t : Swap) : Bool :=
  s.tokenIn < t.tokenIn ||
    (s.tokenIn == t.tokenIn &&
      (s.tokenOut < t.tokenOut ||
        (s.tokenOut == t.tokenOut &&
          (s.id.poolId < t.id.poolId ||
            (s.id.poolId == t.id.poolId &&
              s.id.direction.rank < t.id.direction.rank)))))

/-- `SwapQuote` from `src/arb/swap_quote.rs`. -/
structure SwapQuote where
  amountIn : Nat
  amountOut : Nat
deriving DecidableEq, Repr

/-- `SwapQuote::calculated_amount_out` from `src/arb/swap_quote.rs`, the
Uniswap-v2 formula in wrapping `U256` arithmetic (`Nat` division is the
source's flooring `U256` division; the source would panic on a zero
denominator where `Nat` division returns 0). -/
def calculatedAmountOut (reserveIn reserveOut amountIn : Nat) : Nat :=
  let feeNumerator := 997
  let feeDenominator := 1000
  let amountInWithFee := mulW amountIn feeNumerator
  let numerator := mulW amountInWithFee reserveOut
  let denominator := addW (mulW reserveIn feeDenominator) amountInWithFee
  numerator / denominator

/-- `SwapQuote::new`: the source asserts `has_reserves`; theorems about it
carry that hypothesis. -/
def SwapQuote.new (s : Swap) (amountIn : Nat) : SwapQuote :=
  { amountIn := amountIn,
    amountOut := calculatedAmountOut s.reserveInV s.reserveOutV amountIn }

/-- The claim's formula, written exactly as the spec states it:
`floor((997·x·R_out) / (1000·R_in + 997·x))` with every operation performed
in 256-bit unsigned arithmetic. For comparison against
`calculatedAmountOut`. -/
def specSwapAmountOut (rIn rOut x : Nat) : Nat :=
  mulW (mulW 997 x) rOut / addW (mulW 1000 rIn) (mulW 997 x)

/-- `CycleQuote` from `src/arb/cycle_quote.rs`: the per-swap unfolding of a
cycle quote. -/
structure CycleQuote where
  swapQuotes : List SwapQuote
deriving DecidableEq, Repr

/-- The fold inside `CycleQuote::new`: feed `amount_in` to the first swap,
its output to the next, collecting every `SwapQuote`. -/
def quoteFold : List Swap → Nat → List SwapQuote
  | [], _ => []
  | s :: rest, amount =>
    let q := SwapQuote.new s amount
    q :: quoteFold rest q.amountOut

/-- `CycleQuote::new` applied to a swap sequence (the source receives the
`Cycle` and folds over its `swaps` field). -/
def CycleQuote.ofSwaps (swaps : List Swap) (amountIn : Nat) : CycleQuote :=
  { swapQuotes := quoteFold swaps amountIn }

/-- `CycleQuote::amount_in`: the first swap quote's input (the source
unwraps; cycles always have at least two swaps). -/
def CycleQuote.amountIn (q : CycleQuote) : Nat :=
  (q.swapQuotes.headD ⟨0, 0⟩).amountIn

/-- `CycleQuote::amount_out`: the last swap quote's output. -/
def CycleQuote.amountOut (q : CycleQuote) : Nat :=
  (q.swapQuotes.getLastD ⟨0, 0⟩).amountOut

/-- `CycleQuote::profit`:
`I256::from_raw(amount_out).saturating_sub(I256::from_raw(amount_in))`. -/
def CycleQuote.profit (q : CycleQuote) : Int :=
  i256SatSub (i256FromRaw q.amountOut) (i256FromRaw q.amountIn)

/-- `i32::MAX`. -/
def I32MAX : Int := 2147483647

/-- `CycleQuote::profit_margin` from `src/arb/cycle_quote.rs`: basis points,
0 for a zero input, capped at `i32::MAX` and signed by the profit's sign.
`profit.abs().into_raw()` is the absolute value of the signed profit
reinterpreted as `U256`, i.e. `Int.natAbs`. -/
def CycleQuote.profitMargin (q : CycleQuote) : Int :=
  if q.amountIn = 0 then 0
  else
    let scaledProfit := u256SatMul q.profit.natAbs 10000
    let margin := scaledProfit / q.amountIn
    let result : Int := if I32MAX < (margin : Int) then I32MAX else (margin : Int)
    if q.profit < 0 then -result else result

/-- `CycleQuote::is_profitable`. -/
def CycleQuote.isProfitable (q : CycleQuote) : Bool :=
  0 < q.profit

/-- `Cycle` from `src/arb/cycle.rs`: the normalized swap sequence plus the
memoized best quote (`RefCell<Option<CycleQuote>>`). -/
structure Cycle where
  swaps : List Swap
  bestQuoteCache : Option CycleQuote
deriving DecidableEq, Repr

/-- The token-chaining check of `Cycle::validate_swaps`:
`swaps[i].token_out == swaps[(i+1) % n].token_in` for every `i`. -/
def chainOk (swaps : List Swap) : Bool :=
  (List.range swaps.length).all fun i =>
    (swaps.getD i default).tokenOut == (swaps.getD ((i + 1) % swaps.length) default).tokenIn

/-- Association-list increment used to embed the token-count `HashMap` of
`Cycle::validate_swaps`. -/
def bumpCount (counts : List (TokenId × Nat)) (t : TokenId) : List (TokenId × Nat) :=
  match counts with
  | [] => [(t, 1)]
  | (k, v) :: rest => if k = t then (k, v + 1) :: rest else (k, v) :: bumpCount rest t

/-- Count lookup for `bumpCount` lists. -/
def countLookup (counts : List (TokenId × Nat)) (t : TokenId) : Nat :=
  match counts with
  | [] => 0
  | (k, v) :: rest => if k = t then v else countLookup rest t

/-- The duplicate-token scan of `Cycle::validate_swaps`: bump the count of
each swap's input and output token and fail as soon as one exceeds 2. -/
def hasDupTokens : List Swap → List (TokenId × Nat) → Bool
  | [], _ => false
  | s :: rest, counts =>
    let c1 := bumpCount counts s.tokenIn
    let c2 := bumpCount c1 s.tokenOut
    if 2 < countLookup c2 s.tokenIn || 2 < countLookup c2 s.tokenOut then true
    else hasDupTokens rest c2

/-- `p` holds of some ordered pair (`itertools::combinations(2)`). -/
def anyPairs (p : Swap → Swap → Bool) : List Swap → Bool
  | [] => false
  | x :: rest => rest.any (p x) || anyPairs p rest

/-- `Cycle::validate_swaps` from `src/arb/cycle.rs`, checks in source order:
length, token chaining, duplicate tokens, duplicate swaps (under the
reserve-ignoring `Swap` equality, as the `HashMap` key), reciprocal pairs. -/
def validateSwaps (swaps : List Swap) : Except String Unit :=
  if swaps.length < 2 then
    .error "Cycle must have at least 2 swaps"
  else if !chainOk swaps then
    .error "Swap output token does not match next swap input token"
  else if hasDupTokens swaps [] then
    .error "Cycle contains duplicate tokens"
  else if anyPairs Swap.eqv swaps then
    .error "Cycle contains duplicate swaps"
  else if anyPairs Swap.isReciprocal swaps then
    .error "Cycle contains reciprocal swaps"
  else
    .ok ()

/-- The index scan of `Cycle::normalize_swaps`: position of the first
minimum under the `Swap` order (`best` is the best index so far, `i` the
index of the head of the remaining list). -/
def minIdxAux : List Swap → Swap → Nat → Nat → Nat
  | [], _, _, best => best
  | x :: rest, bestSwap, i, best =>
    if Swap.lt x bestSwap then minIdxAux rest x (i + 1) i
    else minIdxAux rest bestSwap (i + 1) best

/-- `Cycle::normalize_swaps`: rotate left so the smallest swap is first
(the source's `min_idx == 0` early return yields the same list). -/
def normalizeSwaps (swaps : List Swap) : List Swap :=
  match swaps with
  | [] => []
  | x :: rest => (x :: rest).rotateLeft (minIdxAux rest x 1 0)

/-- `Cycle::new`: validate, then normalize; the best-quote cache starts
empty. -/
def Cycle.new (swaps : List Swap) : Except String Cycle :=
  match validateSwaps swaps with
  | .error e => .error e
  | .ok _ => .ok { swaps := normalizeSwaps swaps, bestQuoteCache := none }

/-- `Cycle::has_all_reserves`. -/
def Cycle.hasAllReserves (c : Cycle) : Bool :=
  c.swaps.all Swap.hasReserves

/-- Pointwise swap-list equality under the reserve-ignoring `Swap`
equality; the catch-all covers the source's length check. -/
def swapListEqv : List Swap → List Swap → Bool
  | [], [] => true
  | s :: ss, t :: tt => Swap.eqv s t && swapListEqv ss tt
  | _, _ => false

/-- The source's `Cycle` `PartialEq`: same length and pointwise `Swap`
equality over the canonical sequences. -/
def Cycle.eqv (c d : Cycle) : Bool :=
  swapListEqv c.swaps d.swaps

/-- The exact data the source's `Cycle` `Hash` feeds the hasher: for each
swap in order, its id and token endpoints. Two cycles with equal `hashData`
collide under every `Hasher`. -/
def Cycle.hashData (c : Cycle) : List (Nat × Nat × Nat × Nat) :=
  c.swaps.map Swap.key

/-- The source's `Cycle` `Ord` (`impl Ord for Cycle`): it compares only the
first swaps of the two cycles. -/
def Cycle.lt (c d : Cycle) : Bool :=
  Swap.lt (c.swaps.headD default) (d.swaps.headD default)

/-- `Cycle::quote`. -/
def Cycle.quote (c : Cycle) (amountIn : Nat) : CycleQuote :=
  CycleQuote.ofSwaps c.swaps amountIn

/-- The non-convergence message of `Cycle::best_quote`. -/
def convergenceError (n : Nat) : String :=
  "Cycle optimization failed to converge after " ++ toString n ++ " iterations"

/-- The bisection loop of `Cycle::best_quote` (`src/arb/cycle.rs`):
`precision = 1`, derivative probe `delta = 100`, `max_count = 100`.
Each iteration first increments `count` and bails out past the cap, then
probes the profit curve at `m = (left + right) / 2` and `m + delta`.
The extra `fuel` argument exists only to make the recursion structural;
entered with `fuel = 101` and `count = 0`, the source's own iteration-cap
check always fires before the fuel can reach 0, so the fuel branch is
unreachable (proved by `bestQuoteLoop_ok_or_converge_error`). -/
def bestQuoteLoop (swaps : List Swap) (fuel left right : Nat) (best : CycleQuote)
    (count : Nat) : Except String CycleQuote :=
  match fuel with
  | 0 => .error "unreachable: iteration cap precedes fuel exhaustion"
  | fuel + 1 =>
    if subW right left > 1 then
      let count' := count + 1
      if 100 < count' then .error (convergenceError count')
      else
        let amountIn := addW left right / 2
        let amountInDelta := addW amountIn 100
        let quote := CycleQuote.ofSwaps swaps amountIn
        let quoteDelta := CycleQuote.ofSwaps swaps amountInDelta
        if quote.profit < quoteDelta.profit then
          bestQuoteLoop swaps fuel amountIn right quoteDelta count'
        else
          bestQuoteLoop swaps fuel left amountIn quote count'
    else .ok best

/-- `Cycle::best_quote` without the memoization read: run the bisection
from `[0, reserve_in(swaps[0])]` starting from the zero-input quote, then
map a best input equal to the precision (1 wei) to the zero-input quote. -/
def Cycle.bestQuoteCompute (c : Cycle) : Except String CycleQuote :=
  match bestQuoteLoop c.swaps 101 0 (c.swaps.headD default).reserveInV
      (CycleQuote.ofSwaps c.swaps 0) 0 with
  | .error e => .error e
  | .ok best => .ok (if best.amountIn = 1 then CycleQuote.ofSwaps c.swaps 0 else best)

/-- `Cycle::best_quote`: serve the memoized quote if present, otherwise
compute (the source also stores the computed quote in the cell; the
returned value is the same). -/
def Cycle.bestQuote (c : Cycle) : Except String CycleQuote :=
  match c.bestQuoteCache with
  | some q => .ok q
  | none => c.bestQuoteCompute

/-- `Token` from `src/arb/token.rs`. -/
structure Token where
  id : TokenId
deriving DecidableEq, Repr

instance : Inhabited Token := ⟨⟨0⟩⟩

/-- The derived `Ord` on `Token` (by address). -/
def Token.lt (t u : Token) : Bool := t.id < u.id

/-- `HashMap::insert` on an association list: overwrite the key if present,
otherwise append. -/
def alInsert {α : Type} [DecidableEq α] (m : List (α × Nat)) (k : α) (v : Nat) :
    List (α × Nat) :=
  match m with
  | [] => [(k, v)]
  | (k', v') :: rest =>
    if k' = k then (k, v) :: rest else (k', v') :: alInsert rest k v

/-- `HashMap::get` on an association list. -/
def alLookup {α : Type} [DecidableEq α] (m : List (α × Nat)) (k : α) : Option Nat :=
  match m with
  | [] => none
  | (k', v') :: rest => if k' = k then some v' else alLookup rest k

/-- Build a key-to-index map from an enumerated key list (the
`for (i, x) in vec.iter().enumerate() { map.insert(key(x), i) }` pattern of
`World::new`). -/
def buildMap {α : Type} [DecidableEq α] (keys : List α) : List (α × Nat) :=
  keys.enum.foldl (fun m p => alInsert m p.2 p.1) []

/-- Stable insertion used to embed `Vec::sort` / `sort_by` (Rust's sort is
stable): insert `x` before the first strictly greater element, hence after
every element it ties with. -/
def insertSorted {α : Type} (lt : α → α → Bool) (x : α) : List α → List α
  | [] => [x]
  | y :: ys => if lt x y then x :: y :: ys else y :: insertSorted lt x ys

/-- Stable sort by a strict boolean order. -/
def sortBy {α : Type} (lt : α → α → Bool) (l : List α) : List α :=
  l.foldl (fun acc x => insertSorted lt x acc) []

/-- `World` from `src/arb/world.rs`. `HashMap`s are association lists;
the adjacency list maps each token index to the indices of its outgoing
swaps. -/
structure World where
  tokenVec : List Token
  tokenMap : List (TokenId × Nat)
  swapVec : List Swap
  swapMap : List (SwapId × Nat)
  graph : List (List Nat)
  cycleVec : List Cycle
deriving Repr

/-- Insertion into the `HashSet<Cycle>` of the enumerator: `Cycle::new`
failures are dropped, duplicates under the canonical cycle equality are
deduplicated. The resulting list is in discovery order. -/
def insertCycle (cycles : List Cycle) (path : List Swap) : List Cycle :=
  match Cycle.new path with
  | .error _ => cycles
  | .ok c => if cycles.any (Cycle.eqv c) then cycles else cycles ++ [c]

/-- `World::dfs_find_cycles` from `src/arb/world.rs`. `fuel` is
`max_depth - depth`; the walk's depth equals `path.length`. The source's
edge loop (skip visited edges, edges whose input token is not the current
vertex, and unknown output tokens; otherwise recurse one level deeper) is
the fold; its push/pop of `visited` and `path` is modeled by passing the
extended values only to the recursive call. -/
def dfsNode (tv : List Token) (tm : List (TokenId × Nat)) (sv : List Swap)
    (graph : List (List Nat)) : Nat → Nat → Nat → List Nat → List Swap →
    List Cycle → List Cycle
  | fuel, start, cur, visited, path, cycles =>
    if 0 < path.length && cur == start then
      insertCycle cycles path
    else
      match fuel with
      | 0 => cycles
      | fuel' + 1 =>
        (graph.getD cur []).foldl
          (fun cyc e =>
            if visited.contains e then cyc
            else
              let s := sv.getD e default
              if s.tokenIn != (tv.getD cur default).id then cyc
              else
                match alLookup tm s.tokenOut with
                | none => cyc
                | some next =>
                  dfsNode tv tm sv graph fuel' start next (e :: visited) (path ++ [s]) cyc)
          cycles

/-- `World::new` up to (and excluding) cycle enumeration: sorted token
table, sorted swap table, key-to-index maps, adjacency list. -/
def worldBase (pools : List Pool) : World :=
  let tokenIds := (pools.flatMap fun p => [p.token0, p.token1]).dedup
  let tokenVec := sortBy Token.lt (tokenIds.map Token.mk)
  let tokenMap := buildMap (tokenVec.map Token.id)
  let swapVec := sortBy Swap.lt (pools.flatMap fun p => [Swap.forward p, Swap.reverse p])
  let swapMap := buildMap (swapVec.map Swap.id)
  let graph := (List.range tokenVec.length).map fun t =>
    swapVec.enum.filterMap fun p =>
      if alLookup tokenMap p.2.tokenIn = some t then some p.1 else none
  { tokenVec := tokenVec, tokenMap := tokenMap, swapVec := swapVec,
    swapMap := swapMap, graph := graph, cycleVec := [] }

/-- The cycle set found by `World::cycle_vec` (one DFS per token, maximum
depth 3), in deterministic discovery order. The source collects these into
a `HashSet<Cycle>` whose iteration order is arbitrary; this list is the
set's contents. -/
def enumerateCycles (w : World) : List Cycle :=
  (List.range w.tokenVec.length).foldl
    (fun cycles t => dfsNode w.tokenVec w.tokenMap w.swapVec w.graph 3 t t [] [] cycles)
    []

/-- The final `cycles_vec.sort_by(Ord::cmp)` of `World::cycle_vec`: a stable
sort under the first-swap-only cycle comparison, applied to the cycle set in
whatever order the `HashSet` iterates it. -/
def sortCycles (order : List Cycle) : List Cycle :=
  sortBy Cycle.lt order

/-- `World::new` for one particular run: the un-modeled `HashSet` iteration
order is taken to be discovery order. `sortCycles` applied to any other
iteration order models any other run. -/
def worldNew (pools : List Pool) : World :=
  let base := worldBase pools
  { base with cycleVec := sortCycles (enumerateCycles base) }

/-- `WorldUpdate` from `src/arb/world_update.rs`. -/
structure WorldUpdate where
  cycles : List Cycle
deriving Repr

/-- One pool step of `World::update_swaps`: rebuild the forward and reverse
swaps and write each over the existing record at its mapped index, skipping
swap ids the world does not know. -/
def updateSwapsPool (sv : List Swap) (sm : List (SwapId × Nat))
    (upd : List Swap) (p : Pool) : List Swap × List Swap :=
  let f := Swap.forward p
  let step1 : List Swap × List Swap :=
    match alLookup sm f.id with
    | some i => (sv.set i f, upd ++ [f])
    | none => (sv, upd)
  let r := Swap.reverse p
  match alLookup sm r.id with
  | some i => (step1.1.set i r, step1.2 ++ [r])
  | none => step1

/-- `World::update_swaps`, iterating the updated pools. -/
def updateSwapsGo (sv : List Swap) (sm : List (SwapId × Nat))
    (pools : List Pool) (upd : List Swap) : List Swap × List Swap :=
  match pools with
  | [] => (sv, upd)
  | p :: rest =>
    let r := updateSwapsPool sv sm upd p
    updateSwapsGo r.1 sm rest r.2

/-- `World::update_swaps`: returns the mutated world and the updated swap
records. -/
def World.updateSwaps (w : World) (pools : List Pool) : World × List Swap :=
  let r := updateSwapsGo w.swapVec w.swapMap pools []
  ({ w with swapVec := r.1 }, r.2)

/-- `HashSet<Swap>::contains` under the source's reserve-ignoring `Swap`
equality and hash. -/
def anyEqv (l : List Swap) (s : Swap) : Bool :=
  l.any fun u => Swap.eqv u s

/-- `World::update_cycles`: keep the pre-enumerated cycles having at least
one swap whose id maps to a current swap record contained in the updated
set. Note the kept cycles are clones of the stored ones (they keep the
swap values captured at enumeration time). -/
def World.updateCycles (w : World) (updatedSwaps : List Swap) : List Cycle :=
  w.cycleVec.filter fun c =>
    c.swaps.any fun s =>
      match alLookup w.swapMap s.id with
      | some i => anyEqv updatedSwaps (w.swapVec.getD i default)
      | none => false

/-- `World::update`: rewrite the swap records of the changed pools, then
filter the cycle list. -/
def World.update (w : World) (pools : List Pool) : World × WorldUpdate :=
  let r := w.updateSwaps pools
  (r.1, ⟨r.1.updateCycles r.2⟩)


/-! ### Concrete scenario data (short addresses, as in the crate's tests) -/

/-- Token address `A`. -/
def tokA : TokenId := 10

/-- Token address `B`. -/
def tokB : TokenId := 11

/-- Token address `C`. -/
def tokC : TokenId := 12

/-- Token address `D`. -/
def tokD : TokenId := 13

/-- Pool `F1:(A,B,100,200)`. -/
def poolF1 : Pool := Pool.new 1 tokA tokB (some 100) (some 200)

/-- Pool `F2:(B,A,300,100)` (scenario S1). -/
def poolF2BA : Pool := Pool.new 2 tokB tokA (some 300) (some 100)

/-- Pool `F2:(A,B,100,300)` (scenario S6 / `test_find_cycles`). -/
def poolF2 : Pool := Pool.new 2 tokA tokB (some 100) (some 300)

/-- The S1 cycle `A→B via F1, B→A via F2` in canonical form (its first swap
is already the smallest). -/
def s1Cycle : Cycle :=
  { swaps := [Swap.forward poolF1, Swap.forward poolF2BA], bestQuoteCache := none }

/-- Pool `F1` with fresh reserves `(100, 400)`. -/
def poolF1new : Pool := Pool.new 1 tokA tokB (some 100) (some 400)

/-- Boolean strict order on swap keys; `Swap.lt s t = keyLt s.key t.key`. -/
def keyLt (a b : Nat × Nat × Nat × Nat) : Bool :=
  a.1 < b.1 ||
    (a.1 == b.1 &&
      (a.2.1 < b.2.1 ||
        (a.2.1 == b.2.1 &&
          (a.2.2.1 < b.2.2.1 ||
            (a.2.2.1 == b.2.2.1 && a.2.2.2 < b.2.2.2)))))

/-- The swap ids of the updated pools that the world already knows: for
each updated pool, its forward and reverse swap ids that are present in the
swap map (the claim's "swap whose id belongs to an updated pool that was
already known to the world"; ids of unknown pools are absent — they are
silently ignored). -/
def knownUpdatedIds (sm : List (SwapId × Nat)) (pools : List Pool) : List SwapId :=
  pools.flatMap fun p =>
    (if (alLookup sm (Swap.forward p).id).isSome then [(Swap.forward p).id] else []) ++
      (if (alLookup sm (Swap.reverse p).id).isSome then [(Swap.reverse p).id] else [])

/-- Well-formedness of a swap table with respect to a swap map: every map
entry points inside the table, at a record carrying the entry's id. This
holds for every world built by `World::new` and is preserved by
`World::update`. -/
def VecWF (sv : List Swap) (sm : List (SwapId × Nat)) : Prop :=
  ∀ e ∈ sm, e.2 < sv.length ∧ (sv.getD e.2 default).id = e.1

/-- Well-formedness of a world's swap table. -/
def World.WF (w : World) : Prop :=
  VecWF w.swapVec w.swapMap

/-- The first-swap key of a cycle: all the data the source's `Cycle` `Ord`
consults (`impl Ord for Cycle` compares only `swaps.first()`). -/
def Cycle.firstKey (c : Cycle) : Nat × Nat × Nat × Nat :=
  Swap.key (c.swaps.headD default)

/-- Pools for the determinism analysis: `F1:(A,B)`, `F2:(B,C)`, `F3:(C,A)`,
`F4:(B,D)`, `F5:(D,A)`. The world over them enumerates two 3-cycles out of
token `A` through `F1` — two distinct cycles with the same first swap. -/
def c9pools : List Pool :=
  [Pool.new 1 tokA tokB (some 1) (some 1), Pool.new 2 tokB tokC (some 1) (some 1),
   Pool.new 3 tokC tokA (some 1) (some 1), Pool.new 4 tokB tokD (some 1) (some 1),
   Pool.new 5 tokD tokA (some 1) (some 1)]

/-- The deterministic contents of the enumerator's `HashSet<Cycle>` for
`c9pools`, in discovery order (one possible iteration order of the set). -/
def c9enum : List Cycle := enumerateCycles (worldBase c9pools)

/-- Transpose the first two elements: another iteration order of the same
hash set. -/
def swapFirstTwo {α : Type} : List α → List α
  | a :: b :: rest => b :: a :: rest
  | l => l

/-! ### Generic facts about the swap order and the key projection -/

theorem swapLt_key (s t : Swap) : Swap.lt s t = keyLt s.key t.key := rfl

theorem keyLt_irrefl (a : Nat × Nat × Nat × Nat) : keyLt a a = false := by
  simp [keyLt]

theorem keyLt_asymm {a b : Nat × Nat × Nat × Nat} (h : keyLt a b = true) :
    keyLt b a = false := by
  obtain ⟨a1, a2, a3, a4⟩ := a
  obtain ⟨b1, b2, b3, b4⟩ := b
  simp only [keyLt] at h ⊢
  simp only [Bool.or_eq_true, Bool.and_eq_true, beq_iff_eq, decide_eq_true_eq] at h
  simp only [Bool.or_eq_false_iff, Bool.and_eq_false_iff, beq_eq_false_iff_ne, ne_eq,
    decide_eq_false_iff_not]
  omega

theorem keyLt_trans {a b c : Nat × Nat × Nat × Nat}
    (h1 : keyLt a b = true) (h2 : keyLt b c = true) : keyLt a c = true := by
  obtain ⟨a1, a2, a3, a4⟩ := a
  obtain ⟨b1, b2, b3, b4⟩ := b
  obtain ⟨c1, c2, c3, c4⟩ := c
  simp only [keyLt, Bool.or_eq_true, Bool.and_eq_true, beq_iff_eq, decide_eq_true_eq] at h1 h2 ⊢
  omega

theorem keyLt_connex {a b : Nat × Nat × Nat × Nat} (h : a ≠ b) :
    keyLt a b = true ∨ keyLt b a = true := by
  obtain ⟨a1, a2, a3, a4⟩ := a
  obtain ⟨b1, b2, b3, b4⟩ := b
  simp only [ne_eq, Prod.mk.injEq, not_and] at h
  simp only [keyLt, Bool.or_eq_true, Bool.and_eq_true, beq_iff_eq, decide_eq_true_eq]
  by_cases h1 : a1 = b1 <;> by_cases h2 : a2 = b2 <;> by_cases h3 : a3 = b3 <;>
    [skip; skip; skip; skip; skip; skip; skip; skip] <;> omega

/-- The reserve-ignoring swap equality holds exactly when the key data
match. -/
theorem swapEqv_iff_key {s t : Swap} : Swap.eqv s t = true ↔ s.key = t.key := by
  obtain ⟨⟨sp, sd⟩, si1, so1, sri, sro⟩ := s
  obtain ⟨⟨tp, td⟩, ti1, to1, tri, tro⟩ := t
  cases sd <;> cases td <;>
    simp [Swap.eqv, Swap.key, Direction.rank, SwapId.mk.injEq, Prod.ext_iff] <;>
    try tauto

/-- `Swap.eqv` is reflexive. -/
theorem swapEqv_refl (s : Swap) : Swap.eqv s s = true := by
  simp [Swap.eqv]

/-! ### C1 — the constant-product quote formula -/

/-- C1: for every swap whose reserves are present and every input amount
`x`, the quote's `amount_out` equals
`floor((997·x·R_out) / (1000·R_in + 997·x))` computed in 256-bit unsigned
arithmetic (`specSwapAmountOut` is the claim's formula verbatim). -/
theorem mulW_comm (a b : Nat) : mulW a b = mulW b a := by
  simp [mulW, Nat.mul_comm]

theorem swap_quote_amount_out_formula (s : Swap) (x rIn rOut : Nat)
    (hIn : s.reserveIn = some rIn) (hOut : s.reserveOut = some rOut) :
    (SwapQuote.new s x).amountOut = specSwapAmountOut rIn rOut x := by
  simp only [SwapQuote.new, calculatedAmountOut, specSwapAmountOut,
    Swap.reserveInV, Swap.reserveOutV, hIn, hOut, Option.getD_some]
  rw [mulW_comm x 997, mulW_comm rIn 1000]

/-- Witness for C1 at `(R_in, R_out, x) = (100, 200, 50)`: the common value
evaluates to 66. -/
theorem swap_quote_amount_out_formula_witness :
    (SwapQuote.new (Swap.forward poolF1) 50).amountOut = specSwapAmountOut 100 200 50 ∧
      specSwapAmountOut 100 200 50 = 66 :=
  ⟨swap_quote_amount_out_formula (Swap.forward poolF1) 50 100 200 rfl rfl, by decide⟩

/-! ### C8 — `Pool::new` and the same-token check -/

/-- C8 counterexample: `Pool::new` called with `token0 == token1` does not
fail — it returns the pool unchanged (the source is an unconditional
`const fn` constructor). -/
theorem pool_new_same_token_succeeds :
    Pool.new 7 5 5 (some 1) (some 2) =
      { id := 7, token0 := 5, token1 := 5, reserve0 := some 1, reserve1 := some 2 } ∧
    (Pool.new 7 5 5 (some 1) (some 2)).token0 = (Pool.new 7 5 5 (some 1) (some 2)).token1 := by
  decide

/-- C8 amended: `Pool::new` performs no validation and always returns the
pool record; the same-token failure is enforced one level up, by
`Swap::new` (hence by `Swap::forward`/`Swap::reverse`), which rejects
`token_in == token_out`. -/
theorem pool_new_total_swap_new_rejects_same_token
    (id : PoolId) (t0 t1 : TokenId) (r0 r1 : Option Nat) (sid : SwapId) :
    Pool.new id t0 t1 r0 r1 =
      { id := id, token0 := t0, token1 := t1, reserve0 := r0, reserve1 := r1 } ∧
    Swap.new sid t0 t0 r0 r1 = .error "Swap token0 and token1 must be different" := by
  constructor
  · rfl
  · simp [Swap.new]

/-! ### C10 — `profit_margin` safety -/

/-- C10: a zero-input quote has margin 0 (no division by zero), and for a
nonzero input the basis-points margin is clamped so its magnitude never
exceeds `i32::MAX`. -/
theorem profit_margin_safe (q : CycleQuote) :
    (q.amountIn = 0 → q.profitMargin = 0) ∧
      (q.amountIn ≠ 0 → |q.profitMargin| ≤ I32MAX) := by
  constructor
  · intro h
    simp [CycleQuote.profitMargin, h]
  · intro h
    simp only [CycleQuote.profitMargin, if_neg h]
    have hI : (0 : Int) ≤ I32MAX := by decide
    have hm0 : (0 : Int) ≤ ((u256SatMul q.profit.natAbs 10000 / q.amountIn : Nat) : Int) :=
      Int.ofNat_nonneg _
    split_ifs with hm hs hs' <;> rw [abs_le] <;> constructor <;> omega

/-- Witness for C10: a concrete quote with input 10 and output 15 has
margin 5000 bps, within the `i32` bound. -/
theorem profit_margin_safe_witness :
    (CycleQuote.mk [⟨10, 12⟩, ⟨12, 15⟩]).amountIn ≠ 0 ∧
      |(CycleQuote.mk [⟨10, 12⟩, ⟨12, 15⟩]).profitMargin| ≤ I32MAX ∧
      (CycleQuote.mk [⟨10, 12⟩, ⟨12, 15⟩]).profitMargin = 5000 :=
  ⟨by decide, (profit_margin_safe (CycleQuote.mk [⟨10, 12⟩, ⟨12, 15⟩])).2 (by decide), by decide⟩

/-! ### C5 — unprofitable cycles return the zero quote -/

theorem calcAmountOut_zero (rIn rOut : Nat) : calculatedAmountOut rIn rOut 0 = 0 := by
  simp [calculatedAmountOut, mulW, addW]

theorem quoteFold_zero (swaps : List Swap) :
    quoteFold swaps 0 = swaps.map (fun _ => ⟨0, 0⟩) := by
  induction swaps with
  | nil => rfl
  | cons s rest ih =>
    simp [quoteFold, SwapQuote.new, calcAmountOut_zero, ih]

theorem zeroQuote_amountIn (swaps : List Swap) :
    (CycleQuote.ofSwaps swaps 0).amountIn = 0 := by
  cases swaps <;>
    simp [CycleQuote.ofSwaps, CycleQuote.amountIn, quoteFold_zero]

theorem lastD_const (l : List Swap) (d : SwapQuote) :
    (l.map (fun _ => d)).getLastD d = d := by
  induction l with
  | nil => rfl
  | cons s rest ih => rw [List.map_cons, List.getLastD_cons, ih]

theorem zeroQuote_amountOut (swaps : List Swap) :
    (CycleQuote.ofSwaps swaps 0).amountOut = 0 := by
  rw [CycleQuote.ofSwaps, quoteFold_zero, CycleQuote.amountOut]
  rw [lastD_const]

/-- The zero-input quote of any swap sequence has zero profit. -/
theorem zeroQuote_profit (swaps : List Swap) :
    (CycleQuote.ofSwaps swaps 0).profit = 0 := by
  simp [CycleQuote.profit, zeroQuote_amountIn, zeroQuote_amountOut,
    i256FromRaw, i256SatSub, I256MIN, I256MAX]

/-- C5: for the S1 cycle over `F1:(A,B,100,200)` and `F2:(B,A,300,100)`,
`best_quote()` returns the zero quote (`amount_in = 0`, `profit = 0`); and
in general, whenever the bisection loop's best input equals the precision
(1 wei), `best_quote` replaces it with the zero-input quote, whose profit
is 0. -/
theorem best_quote_unprofitable_zero :
    (Cycle.new [Swap.forward poolF1, Swap.forward poolF2BA] = .ok s1Cycle) ∧
    (∃ q, s1Cycle.bestQuote = .ok q ∧ q.amountIn = 0 ∧ q.profit = 0) ∧
    (∀ (c : Cycle) (best : CycleQuote),
      bestQuoteLoop c.swaps 101 0 (c.swaps.headD default).reserveInV
          (CycleQuote.ofSwaps c.swaps 0) 0 = .ok best →
      best.amountIn = 1 →
      c.bestQuoteCompute = .ok (CycleQuote.ofSwaps c.swaps 0) ∧
        (CycleQuote.ofSwaps c.swaps 0).profit = 0) := by
  refine ⟨by rfl, ⟨CycleQuote.ofSwaps s1Cycle.swaps 0, by rfl, by rfl, by rfl⟩, ?_⟩
  intro c best hloop h1
  refine ⟨?_, zeroQuote_profit c.swaps⟩
  rw [Cycle.bestQuoteCompute, hloop]
  simp [h1]

/-- Witness for C5's general 1-wei clause at the S1 cycle: its raw loop
output has `amount_in = 1` and the final best quote is the zero quote. -/
theorem best_quote_unprofitable_zero_witness :
    s1Cycle.bestQuoteCompute = .ok (CycleQuote.ofSwaps s1Cycle.swaps 0) ∧
      (CycleQuote.ofSwaps s1Cycle.swaps 0).profit = 0 :=
  best_quote_unprofitable_zero.2.2 s1Cycle (CycleQuote.mk [⟨1, 1⟩, ⟨1, 0⟩])
    (by rfl) (by rfl)

/-! ### C6 — the optimizer terminates at the iteration cap -/

/-- The bisection loop, entered with at most 100 used iterations and enough
fuel, either returns a best quote or fails with the non-convergence error
raised at the 101st iteration; it cannot do anything else (in particular
the artificial fuel branch is unreachable and the loop cannot run
unboundedly: the `count > max_count` check bails out). -/
theorem bestQuoteLoop_ok_or_converge_error :
    ∀ (fuel cnt : Nat), 101 - cnt ≤ fuel → cnt ≤ 100 →
      ∀ (swaps : List Swap) (l r : Nat) (b : CycleQuote),
      (∃ q, bestQuoteLoop swaps fuel l r b cnt = .ok q) ∨
        bestQuoteLoop swaps fuel l r b cnt = .error (convergenceError 101) := by
  intro fuel
  induction fuel with
  | zero => intro cnt hk hcnt; omega
  | succ k ih =>
    intro cnt hk hcnt swaps l r b
    rw [bestQuoteLoop]
    by_cases hcond : subW r l > 1
    · simp only [hcond, if_true]
      by_cases hcap : 100 < cnt + 1
      · have : cnt = 100 := by omega
        subst this
        simp
      · simp only [if_neg hcap]
        have hk' : 101 - (cnt + 1) ≤ k := by omega
        have hcnt' : cnt + 1 ≤ 100 := by omega
        by_cases hp : (CycleQuote.ofSwaps swaps (addW l r / 2)).profit <
            (CycleQuote.ofSwaps swaps (addW (addW l r / 2) 100)).profit
        · simp only [if_pos hp]
          exact ih (cnt + 1) hk' hcnt' swaps (addW l r / 2) r _
        · simp only [if_neg hp]
          exact ih (cnt + 1) hk' hcnt' swaps l (addW l r / 2) _
    · simp only [hcond, if_false]
      exact Or.inl ⟨b, rfl⟩

/-- C6: for every cycle whose swaps all have reserves, `best_quote`
terminates with either a quote or the recoverable non-convergence error
produced when the hard cap of 100 iterations is exceeded (the error names
iteration 101, the first past the cap). -/
theorem best_quote_terminates (c : Cycle) (h : c.hasAllReserves = true) :
    (∃ q, c.bestQuote = .ok q) ∨ c.bestQuote = .error (convergenceError 101) := by
  rw [Cycle.bestQuote]
  cases hc : c.bestQuoteCache with
  | some q => exact Or.inl ⟨q, rfl⟩
  | none =>
    rw [Cycle.bestQuoteCompute]
    rcases bestQuoteLoop_ok_or_converge_error 101 0 (by omega) (by omega) c.swaps 0
        ((c.swaps.headD default).reserveInV) (CycleQuote.ofSwaps c.swaps 0) with ⟨q, hq⟩ | herr
    · rw [hq]
      exact Or.inl ⟨_, rfl⟩
    · rw [herr]
      exact Or.inr rfl

/-- Witness for C6 at the S1 cycle (all reserves present). -/
theorem best_quote_terminates_witness :
    s1Cycle.hasAllReserves = true ∧
      ((∃ q, s1Cycle.bestQuote = .ok q) ∨ s1Cycle.bestQuote = .error (convergenceError 101)) :=
  ⟨by decide, best_quote_terminates s1Cycle (by decide)⟩

/-! ### C3 — reserve updates do not reach the returned cycles (code bug) -/

/-- C3 fails on the code: after updating known pool `F1` from reserves
`(100, 200)` to `(100, 400)` in the world over `F1:(A,B,100,200)`,
`F2:(A,B,100,300)`, the swap table does receive the new reserves, but the
cycles inside the returned `WorldUpdate` are clones of the cycles captured
at enumeration time and still carry the old reserves — quoting them uses
`(100, 200)`, not `(100, 400)`. The update's whole cycle list is computed
here explicitly: every `F1` swap in it still holds reserve 200, while the
updated swap table holds 400, and quoting the returned cycle at input 10
yields 18 (the old-reserve answer) where a swap rebuilt from the new pool
yields 36. -/
theorem update_returns_stale_reserves :
    ((worldNew [poolF1, poolF2]).update [poolF1new]).2.cycles =
      [⟨[⟨⟨1, .zeroForOne⟩, tokA, tokB, some 100, some 200⟩,
         ⟨⟨2, .oneForZero⟩, tokB, tokA, some 300, some 100⟩], none⟩,
       ⟨[⟨⟨2, .zeroForOne⟩, tokA, tokB, some 100, some 300⟩,
         ⟨⟨1, .oneForZero⟩, tokB, tokA, some 200, some 100⟩], none⟩] ∧
    ((worldNew [poolF1, poolF2]).update [poolF1new]).1.swapVec =
      [⟨⟨1, .zeroForOne⟩, tokA, tokB, some 100, some 400⟩,
       ⟨⟨2, .zeroForOne⟩, tokA, tokB, some 100, some 300⟩,
       ⟨⟨1, .oneForZero⟩, tokB, tokA, some 400, some 100⟩,
       ⟨⟨2, .oneForZero⟩, tokB, tokA, some 300, some 100⟩] ∧
    ((((worldNew [poolF1, poolF2]).update [poolF1new]).2.cycles.headD
        ⟨[], none⟩).quote 10).swapQuotes.headD ⟨0, 0⟩ = ⟨10, 18⟩ ∧
    (SwapQuote.new (Swap.forward poolF1new) 10).amountOut = 36 := by
  decide

/-! ### C4 — rotation canonicalization: equal cycles, equal hashes -/

theorem swapLt_irrefl (s : Swap) : Swap.lt s s = false := by
  rw [swapLt_key]; exact keyLt_irrefl _

theorem swapLt_asymm {s t : Swap} (h : Swap.lt s t = true) : Swap.lt t s = false := by
  rw [swapLt_key] at h ⊢; exact keyLt_asymm h

theorem swapLt_trans {s t u : Swap} (h1 : Swap.lt s t = true) (h2 : Swap.lt t u = true) :
    Swap.lt s u = true := by
  rw [swapLt_key] at h1 h2 ⊢; exact keyLt_trans h1 h2

/-- Specification of the `normalize_swaps` index scan: it either keeps the
incoming best index (and nothing in the remaining list beats the incoming
best value), or returns the offset of a strict improvement that nothing in
the remaining list beats. -/
theorem minIdxAux_spec (l : List Swap) : ∀ (bv : Swap) (i bi : Nat),
    (minIdxAux l bv i bi = bi ∧ ∀ x ∈ l, Swap.lt x bv = false) ∨
    (∃ j, j < l.length ∧ minIdxAux l bv i bi = i + j ∧
      Swap.lt (l.getD j default) bv = true ∧
      ∀ x ∈ l, Swap.lt x (l.getD j default) = false) := by
  induction l with
  | nil => intro bv i bi; exact Or.inl ⟨rfl, by simp⟩
  | cons x rest ih =>
    intro bv i bi
    by_cases hx : Swap.lt x bv = true
    · rcases ih x (i + 1) i with ⟨heq, hmin⟩ | ⟨j, hj, heq, himp, hmin⟩
      · refine Or.inr ⟨0, by simp, ?_, ?_, ?_⟩
        · simpa [minIdxAux, hx] using heq
        · simpa using hx
        · intro y hy
          rcases List.mem_cons.mp hy with h | h
          · subst h; simpa using swapLt_irrefl y
          · simpa using hmin y h
      · refine Or.inr ⟨j + 1, by simpa using hj, ?_, ?_, ?_⟩
        · simp only [minIdxAux, hx, if_true]
          omega
        · simpa [List.getD_cons_succ] using swapLt_trans himp hx
        · intro y hy
          rcases List.mem_cons.mp hy with h | h
          · subst h
            simpa [List.getD_cons_succ] using swapLt_asymm himp
          · simpa [List.getD_cons_succ] using hmin y h
    · have hx' : Swap.lt x bv = false := by
        cases hxx : Swap.lt x bv
        · rfl
        · exact absurd hxx hx
      rcases ih bv (i + 1) bi with ⟨heq, hmin⟩ | ⟨j, hj, heq, himp, hmin⟩
      · refine Or.inl ⟨by simpa [minIdxAux, hx'] using heq, ?_⟩
        intro y hy
        rcases List.mem_cons.mp hy with h | h
        · subst h; exact hx'
        · exact hmin y h
      · refine Or.inr ⟨j + 1, by simpa using hj, ?_, ?_, ?_⟩
        · simp only [minIdxAux, hx', if_false, Bool.false_eq_true]
          omega
        · simpa [List.getD_cons_succ] using himp
        · intro y hy
          rcases List.mem_cons.mp hy with h | h
          · subst h
            cases hxv : Swap.lt y (rest.getD j default) with
            | false => rw [List.getD_cons_succ]; exact hxv
            | true =>
              exfalso
              have : Swap.lt y bv = true := swapLt_trans hxv himp
              simp [this] at hx'
          · simpa [List.getD_cons_succ] using hmin y h

/-- `normalize_swaps` on a nonempty list rotates by an index of a minimal
element: nothing in the list is strictly smaller than the element at the
rotation index. -/
theorem normalize_spec (x : Swap) (rest : List Swap) :
    ∃ m, m < (x :: rest).length ∧
      normalizeSwaps (x :: rest) = (x :: rest).rotateLeft m ∧
      ∀ y ∈ (x :: rest), Swap.lt y ((x :: rest).getD m default) = false := by
  rcases minIdxAux_spec rest x 1 0 with ⟨heq, hmin⟩ | ⟨j, hj, heq, himp, hmin⟩
  · refine ⟨0, by simp, ?_, ?_⟩
    · rw [normalizeSwaps, heq]
    · intro y hy
      rcases List.mem_cons.mp hy with h | h
      · subst h; simpa using swapLt_irrefl y
      · simpa using hmin y h
  · refine ⟨1 + j, by simp only [List.length_cons]; omega, ?_, ?_⟩
    · rw [normalizeSwaps, heq]
    · intro y hy
      have hg : (x :: rest).getD (1 + j) default = rest.getD j default := by
        have : 1 + j = j + 1 := by omega
        rw [this, List.getD_cons_succ]
      rcases List.mem_cons.mp hy with h | h
      · subst h; rw [hg]; exact swapLt_asymm himp
      · rw [hg]; exact hmin y h

/-- Core `List.rotateLeft` agrees with Mathlib's `List.rotate`. -/
theorem rotateLeft_eq_rotate {α : Type} (l : List α) (n : Nat) :
    l.rotateLeft n = l.rotate n := by
  cases l with
  | nil => simp [List.rotateLeft, List.rotate_nil]
  | cons x xs =>
    cases xs with
    | nil => simp [List.rotateLeft, List.rotate_singleton]
    | cons y ys =>
      rw [List.rotateLeft, if_neg (by simp)]
      exact List.rotate_eq_drop_append_take_mod.symm

/-- Unfolding `Cycle::new` on success: validation passed and the stored
sequence is the normalized input. -/
theorem cycleNew_ok {l : List Swap} {c : Cycle} (h : Cycle.new l = .ok c) :
    validateSwaps l = .ok () ∧ c.swaps = normalizeSwaps l := by
  rw [Cycle.new] at h
  cases hv : validateSwaps l with
  | error e => rw [hv] at h; exact absurd h (by simp)
  | ok u =>
    cases u
    rw [hv] at h
    refine ⟨rfl, ?_⟩
    cases h
    rfl

/-- A successful validation implies at least two swaps and no duplicate
swaps (under the reserve-ignoring equality). -/
theorem validate_ok_facts {l : List Swap} (h : validateSwaps l = .ok ()) :
    2 ≤ l.length ∧ anyPairs Swap.eqv l = false := by
  rw [validateSwaps] at h
  by_cases h1 : l.length < 2
  · rw [if_pos h1] at h
    simp at h
  · rw [if_neg h1] at h
    by_cases h2 : (!chainOk l) = true
    · rw [if_pos h2] at h
      simp at h
    · rw [if_neg h2] at h
      by_cases h3 : hasDupTokens l [] = true
      · rw [if_pos h3] at h
        simp at h
      · rw [if_neg h3] at h
        by_cases h4 : anyPairs Swap.eqv l = true
        · rw [if_pos h4] at h
          simp at h
        · refine ⟨by omega, ?_⟩
          cases hx : anyPairs Swap.eqv l
          · rfl
          · exact absurd hx h4

/-- No duplicate swap pairs means the key projection is duplicate-free. -/
theorem validate_nodup_keys : ∀ (l : List Swap), anyPairs Swap.eqv l = false →
    (l.map Swap.key).Nodup := by
  intro l
  induction l with
  | nil => intro _; simp
  | cons x rest ih =>
    intro h
    rw [anyPairs, Bool.or_eq_false_iff] at h
    rw [List.map_cons, List.nodup_cons]
    refine ⟨?_, ih h.2⟩
    intro hmem
    rcases List.mem_map.mp hmem with ⟨y, hy, hkey⟩
    have : Swap.eqv x y = true := swapEqv_iff_key.mpr hkey.symm
    have : rest.any (Swap.eqv x) = true := List.any_eq_true.mpr ⟨y, hy, this⟩
    rw [this] at h
    exact absurd h.1 (by simp)

/-- Equal key projections give the source's pointwise cycle equality. -/
theorem swapListEqv_of_key : ∀ (a b : List Swap),
    a.map Swap.key = b.map Swap.key → swapListEqv a b = true := by
  intro a
  induction a with
  | nil =>
    intro b hb
    cases b with
    | nil => rfl
    | cons y ys => exact absurd hb (by simp)
  | cons x xs ih =>
    intro b hb
    cases b with
    | nil => exact absurd hb (by simp)
    | cons y ys =>
      rw [List.map_cons, List.map_cons] at hb
      injection hb with hhead htail
      rw [swapListEqv, Bool.and_eq_true]
      exact ⟨swapEqv_iff_key.mpr hhead, ih ys htail⟩

/-- Normalization is rotation-invariant on the key projection: two swap
sequences whose key sequences are rotations of one another (same directed
edges, same rotational order, any reserves) normalize to the same key
sequence, provided the first has no duplicate keys. -/
theorem normalized_key_rotation (l1 l2 : List Swap) (r : Nat)
    (hne : l1 ≠ []) (hnd : (l1.map Swap.key).Nodup)
    (hrot : l2.map Swap.key = (l1.map Swap.key).rotate r) :
    (normalizeSwaps l1).map Swap.key = (normalizeSwaps l2).map Swap.key := by
  obtain ⟨x1, rest1, rfl⟩ : ∃ x rest, l1 = x :: rest := by
    cases l1 with
    | nil => exact absurd rfl hne
    | cons a b => exact ⟨a, b, rfl⟩
  obtain ⟨x2, rest2, rfl⟩ : ∃ x rest, l2 = x :: rest := by
    cases l2 with
    | nil =>
      exfalso
      have := congrArg List.length hrot
      simp at this
    | cons a b => exact ⟨a, b, rfl⟩
  obtain ⟨m1, hm1, hN1, hmin1⟩ := normalize_spec x1 rest1
  obtain ⟨m2, hm2, hN2, hmin2⟩ := normalize_spec x2 rest2
  have hn : 0 < ((x1 :: rest1).map Swap.key).length := by simp
  have hm1k : m1 < ((x1 :: rest1).map Swap.key).length := by simpa using hm1
  have hm2k2 : m2 < ((x2 :: rest2).map Swap.key).length := by simpa using hm2
  have hlenk : ((x2 :: rest2).map Swap.key).length = ((x1 :: rest1).map Swap.key).length := by
    rw [hrot, List.length_rotate]
  have hm2k : m2 < ((x1 :: rest1).map Swap.key).length := by omega
  have hmod : (m2 + r) % ((x1 :: rest1).map Swap.key).length <
      ((x1 :: rest1).map Swap.key).length := Nat.mod_lt _ hn
  have hnp1 : (normalizeSwaps (x1 :: rest1)).map Swap.key =
      ((x1 :: rest1).map Swap.key).rotate m1 := by
    rw [hN1, rotateLeft_eq_rotate, List.map_rotate]
  have hnp2 : (normalizeSwaps (x2 :: rest2)).map Swap.key =
      ((x1 :: rest1).map Swap.key).rotate (r + m2) := by
    rw [hN2, rotateLeft_eq_rotate, List.map_rotate, hrot, List.rotate_rotate]
  have hgd1 : (x1 :: rest1).getD m1 default = (x1 :: rest1).get ⟨m1, hm1⟩ :=
    List.getD_eq_get _ _ hm1
  have hgd2 : (x2 :: rest2).getD m2 default = (x2 :: rest2).get ⟨m2, hm2⟩ :=
    List.getD_eq_get _ _ hm2
  rw [hgd1] at hmin1
  rw [hgd2] at hmin2
  have hk1 : ((x1 :: rest1).map Swap.key)[m1]? =
      some (Swap.key ((x1 :: rest1).get ⟨m1, hm1⟩)) := by
    rw [List.getElem?_map, List.getElem?_eq_getElem hm1]
    rfl
  have hk2 : ((x1 :: rest1).map Swap.key)[(m2 + r) % ((x1 :: rest1).map Swap.key).length]? =
      some (Swap.key ((x2 :: rest2).get ⟨m2, hm2⟩)) := by
    rw [← List.getElem?_rotate (n := r) hm2k, ← hrot, List.getElem?_map,
      List.getElem?_eq_getElem hm2]
    rfl
  have hmin1k : ∀ b ∈ (x1 :: rest1).map Swap.key,
      keyLt b (Swap.key ((x1 :: rest1).get ⟨m1, hm1⟩)) = false := by
    intro b hb
    rcases List.mem_map.mp hb with ⟨y, hy, rfl⟩
    rw [← swapLt_key]
    exact hmin1 y hy
  have hmin2k : ∀ b ∈ (x1 :: rest1).map Swap.key,
      keyLt b (Swap.key ((x2 :: rest2).get ⟨m2, hm2⟩)) = false := by
    intro b hb
    have hb2 : b ∈ (x2 :: rest2).map Swap.key := by
      rw [hrot]
      exact List.mem_rotate.mpr hb
    rcases List.mem_map.mp hb2 with ⟨y, hy, rfl⟩
    rw [← swapLt_key]
    exact hmin2 y hy
  have hveq : Swap.key ((x1 :: rest1).get ⟨m1, hm1⟩) = Swap.key ((x2 :: rest2).get ⟨m2, hm2⟩) := by
    by_contra hne2
    rcases keyLt_connex hne2 with hlt | hlt
    · have hmem : Swap.key ((x1 :: rest1).get ⟨m1, hm1⟩) ∈ (x1 :: rest1).map Swap.key :=
        List.getElem?_mem hk1
      have hfalse := hmin2k _ hmem
      rw [hfalse] at hlt
      exact absurd hlt (by simp)
    · have hmem : Swap.key ((x2 :: rest2).get ⟨m2, hm2⟩) ∈ (x1 :: rest1).map Swap.key :=
        List.getElem?_mem hk2
      have hfalse := hmin1k _ hmem
      rw [hfalse] at hlt
      exact absurd hlt (by simp)
  have hsome : ((x1 :: rest1).map Swap.key)[m1]? =
      ((x1 :: rest1).map Swap.key)[(m2 + r) % ((x1 :: rest1).map Swap.key).length]? := by
    rw [hk1, hk2, hveq]
  have hieq : m1 = (m2 + r) % ((x1 :: rest1).map Swap.key).length := by
    by_contra hne3
    rcases Nat.lt_or_ge m1 ((m2 + r) % ((x1 :: rest1).map Swap.key).length) with hlt | hge
    · exact (List.nodup_iff_getElem?_ne_getElem?.mp hnd m1 _ hlt hmod) hsome
    · have hlt2 : (m2 + r) % ((x1 :: rest1).map Swap.key).length < m1 := by omega
      exact (List.nodup_iff_getElem?_ne_getElem?.mp hnd _ m1 hlt2 hm1k) hsome.symm
  rw [hnp1, hnp2, ← List.rotate_mod _ (r + m2), Nat.add_comm r m2, ← hieq]

/-- C4: two successfully constructed cycles whose input swap lists traverse
the same directed swaps in the same rotational order (their reserve-free
key sequences are rotations of one another) are equal under the source's
cycle equality and feed identical data to the hasher, regardless of which
starting vertex each was built from and regardless of reserves. -/
theorem cycle_rotation_equal_and_hash_equal (l1 l2 : List Swap) (r : Nat) (c1 c2 : Cycle)
    (h1 : Cycle.new l1 = .ok c1) (h2 : Cycle.new l2 = .ok c2)
    (hrot : l2.map Swap.key = (l1.map Swap.key).rotate r) :
    Cycle.eqv c1 c2 = true ∧ c1.hashData = c2.hashData := by
  obtain ⟨hv1, hs1⟩ := cycleNew_ok h1
  obtain ⟨hv2, hs2⟩ := cycleNew_ok h2
  obtain ⟨hlen, hdup⟩ := validate_ok_facts hv1
  have hne : l1 ≠ [] := by
    intro h
    rw [h] at hlen
    simp at hlen
  have hnd := validate_nodup_keys l1 hdup
  have hkeys : c1.swaps.map Swap.key = c2.swaps.map Swap.key := by
    rw [hs1, hs2]
    exact normalized_key_rotation l1 l2 r hne hnd hrot
  refine ⟨swapListEqv_of_key _ _ hkeys, ?_⟩
  rw [Cycle.hashData, Cycle.hashData, hkeys]

/-- Witness for C4: the 3-cycle `A→B (F1), B→C (F2), C→A (F3)` built from
two different starting points and with different reserves (as in the
crate's `test_equality_and_hash`). -/
theorem cycle_rotation_equal_and_hash_equal_witness :
    Cycle.eqv
        ⟨[⟨⟨1, .zeroForOne⟩, tokA, tokB, some 100, some 200⟩,
          ⟨⟨2, .zeroForOne⟩, tokB, tokC, some 300, some 100⟩,
          ⟨⟨3, .zeroForOne⟩, tokC, tokA, some 100, some 200⟩], none⟩
        ⟨[⟨⟨1, .zeroForOne⟩, tokA, tokB, some 10, some 20⟩,
          ⟨⟨2, .zeroForOne⟩, tokB, tokC, some 30, some 10⟩,
          ⟨⟨3, .zeroForOne⟩, tokC, tokA, some 10, some 20⟩], none⟩ = true ∧
      Cycle.hashData
          ⟨[⟨⟨1, .zeroForOne⟩, tokA, tokB, some 100, some 200⟩,
            ⟨⟨2, .zeroForOne⟩, tokB, tokC, some 300, some 100⟩,
            ⟨⟨3, .zeroForOne⟩, tokC, tokA, some 100, some 200⟩], none⟩ =
        Cycle.hashData
          ⟨[⟨⟨1, .zeroForOne⟩, tokA, tokB, some 10, some 20⟩,
            ⟨⟨2, .zeroForOne⟩, tokB, tokC, some 30, some 10⟩,
            ⟨⟨3, .zeroForOne⟩, tokC, tokA, some 10, some 20⟩], none⟩ :=
  cycle_rotation_equal_and_hash_equal
    [⟨⟨1, .zeroForOne⟩, tokA, tokB, some 100, some 200⟩,
     ⟨⟨2, .zeroForOne⟩, tokB, tokC, some 300, some 100⟩,
     ⟨⟨3, .zeroForOne⟩, tokC, tokA, some 100, some 200⟩]
    [⟨⟨2, .zeroForOne⟩, tokB, tokC, some 30, some 10⟩,
     ⟨⟨3, .zeroForOne⟩, tokC, tokA, some 10, some 20⟩,
     ⟨⟨1, .zeroForOne⟩, tokA, tokB, some 10, some 20⟩]
    1 _ _ (by rfl) (by rfl) (by decide)

/-! ### C2 — the update filter selects exactly the touched cycles -/

theorem alLookup_mem {α : Type} [DecidableEq α] :
    ∀ (m : List (α × Nat)) (k : α) (i : Nat), alLookup m k = some i → (k, i) ∈ m := by
  intro m
  induction m with
  | nil => intro k i h; exact absurd h (by simp [alLookup])
  | cons e rest ih =>
    intro k i h
    obtain ⟨e1, e2⟩ := e
    rw [alLookup] at h
    by_cases he : e1 = k
    · rw [if_pos he] at h
      injection h with h
      subst he
      subst h
      exact List.mem_cons_self _ _
    · rw [if_neg he] at h
      exact List.mem_cons_of_mem _ (ih k i h)

theorem getD_eq_getElemOpt (l : List Swap) (i : Nat) : l.getD i default = (l[i]?).getD default := by
  rw [List.getD, List.get?_eq_getElem?]

theorem getD_set_self (l : List Swap) (i : Nat) (a : Swap) (h : i < l.length) :
    (l.set i a).getD i default = a := by
  rw [getD_eq_getElemOpt, List.getElem?_set_self h]
  rfl

theorem getD_set_ne (l : List Swap) {i j : Nat} (a : Swap) (h : i ≠ j) :
    (l.set i a).getD j default = l.getD j default := by
  rw [getD_eq_getElemOpt, List.getElem?_set_ne h, ← getD_eq_getElemOpt]

theorem swapEqv_id {u v : Swap} (h : Swap.eqv u v = true) : u.id = v.id := by
  rw [Swap.eqv, Bool.and_eq_true, Bool.and_eq_true] at h
  exact beq_iff_eq.mp h.2

theorem knownUpdatedIds_cons (sm : List (SwapId × Nat)) (p : Pool) (rest : List Pool) :
    knownUpdatedIds sm (p :: rest) =
      ((if (alLookup sm (Swap.forward p).id).isSome then [(Swap.forward p).id] else []) ++
        (if (alLookup sm (Swap.reverse p).id).isSome then [(Swap.reverse p).id] else [])) ++
        knownUpdatedIds sm rest := by
  rw [knownUpdatedIds, knownUpdatedIds, List.flatMap_cons]

theorem mem_knownUpdatedIds_isSome {sm : List (SwapId × Nat)} {pools : List Pool} {sid : SwapId}
    (h : sid ∈ knownUpdatedIds sm pools) : (alLookup sm sid).isSome = true := by
  induction pools with
  | nil => exact absurd h (by simp [knownUpdatedIds])
  | cons p rest ih =>
    rw [knownUpdatedIds_cons] at h
    rcases List.mem_append.mp h with h1 | h1
    · rcases List.mem_append.mp h1 with h2 | h2 <;>
        [skip; skip] <;>
        · split_ifs at h2 with hs
          · rcases List.mem_singleton.mp h2 with rfl
            exact hs
          · exact absurd h2 (by simp)
    · exact ih h1

theorem mem_knownUpdatedIds_intro {sm : List (SwapId × Nat)} {pools : List Pool} {p : Pool}
    {u : Swap} (hp : p ∈ pools) (hu : u = Swap.forward p ∨ u = Swap.reverse p)
    (hs : (alLookup sm u.id).isSome = true) : u.id ∈ knownUpdatedIds sm pools := by
  rw [knownUpdatedIds]
  refine List.mem_flatMap.mpr ⟨p, hp, ?_⟩
  rcases hu with rfl | rfl
  · exact List.mem_append.mpr (Or.inl (by rw [if_pos hs]; exact List.mem_singleton.mpr rfl))
  · exact List.mem_append.mpr (Or.inr (by rw [if_pos hs]; exact List.mem_singleton.mpr rfl))

theorem updateSwapsPool_acc (sv : List Swap) (sm : List (SwapId × Nat)) (acc : List Swap)
    (p : Pool) :
    updateSwapsPool sv sm acc p =
      ((updateSwapsPool sv sm [] p).1, acc ++ (updateSwapsPool sv sm [] p).2) := by
  cases hf : alLookup sm (Swap.forward p).id <;>
    cases hr : alLookup sm (Swap.reverse p).id <;>
      simp [updateSwapsPool, hf, hr]

theorem set_ids_preserved (sv : List Swap) (i : Nat) (a : Swap) (h : i < sv.length)
    (hid : (sv.getD i default).id = a.id) :
    ∀ j, ((sv.set i a).getD j default).id = (sv.getD j default).id := by
  intro j
  by_cases hji : i = j
  · subst hji
    rw [getD_set_self _ _ _ h, ← hid]
  · rw [getD_set_ne _ _ hji]

theorem updateSwapsPool_ids (sv : List Swap) (sm : List (SwapId × Nat)) (p : Pool)
    (hwf : VecWF sv sm) :
    ((updateSwapsPool sv sm [] p).1).length = sv.length ∧
      (∀ j, (((updateSwapsPool sv sm [] p).1).getD j default).id = (sv.getD j default).id) := by
  cases hf : alLookup sm (Swap.forward p).id with
  | none =>
    cases hr : alLookup sm (Swap.reverse p).id with
    | none => simp [updateSwapsPool, hf, hr]
    | some ir =>
      obtain ⟨hlt, hid⟩ := hwf _ (alLookup_mem sm _ ir hr)
      refine ⟨by simp [updateSwapsPool, hf, hr], ?_⟩
      intro j
      simpa [updateSwapsPool, hf, hr] using set_ids_preserved sv ir (Swap.reverse p) hlt hid j
  | some if1 =>
    obtain ⟨hltf, hidf⟩ := hwf _ (alLookup_mem sm _ if1 hf)
    cases hr : alLookup sm (Swap.reverse p).id with
    | none =>
      refine ⟨by simp [updateSwapsPool, hf, hr], ?_⟩
      intro j
      simpa [updateSwapsPool, hf, hr] using
        set_ids_preserved sv if1 (Swap.forward p) hltf hidf j
    | some ir =>
      obtain ⟨hltr, hidr⟩ := hwf _ (alLookup_mem sm _ ir hr)
      have hids1 := set_ids_preserved sv if1 (Swap.forward p) hltf hidf
      have hltr1 : ir < (sv.set if1 (Swap.forward p)).length := by
        rw [List.length_set]; exact hltr
      have hidr1 : ((sv.set if1 (Swap.forward p)).getD ir default).id = (Swap.reverse p).id := by
        rw [hids1 ir]; exact hidr
      have hids2 := set_ids_preserved _ ir (Swap.reverse p) hltr1 hidr1
      refine ⟨by simp [updateSwapsPool, hf, hr], ?_⟩
      intro j
      have : (((sv.set if1 (Swap.forward p)).set ir (Swap.reverse p)).getD j default).id =
          (sv.getD j default).id := by rw [hids2 j, hids1 j]
      simpa [updateSwapsPool, hf, hr] using this

theorem VecWF_of_ids {sv sv' : List Swap} {sm : List (SwapId × Nat)}
    (hlen : sv'.length = sv.length)
    (hids : ∀ j, ((sv'.getD j default)).id = (sv.getD j default).id)
    (hwf : VecWF sv sm) : VecWF sv' sm := by
  intro e he
  obtain ⟨hlt, hid⟩ := hwf e he
  exact ⟨by omega, by rw [hids e.2]; exact hid⟩

theorem updateSwapsPool_wf (sv : List Swap) (sm : List (SwapId × Nat)) (p : Pool)
    (hwf : VecWF sv sm) : VecWF (updateSwapsPool sv sm [] p).1 sm :=
  VecWF_of_ids (updateSwapsPool_ids sv sm p hwf).1 (updateSwapsPool_ids sv sm p hwf).2 hwf

theorem updateSwapsGo_acc :
    ∀ (pools : List Pool) (sv : List Swap) (sm : List (SwapId × Nat)) (acc : List Swap),
    updateSwapsGo sv sm pools acc =
      ((updateSwapsGo sv sm pools []).1, acc ++ (updateSwapsGo sv sm pools []).2) := by
  intro pools
  induction pools with
  | nil => intro sv sm acc; simp [updateSwapsGo]
  | cons p rest ih =>
    intro sv sm acc
    rw [updateSwapsGo, updateSwapsGo, updateSwapsPool_acc sv sm acc p]
    have hnil : updateSwapsPool sv sm [] p =
        ((updateSwapsPool sv sm [] p).1, (updateSwapsPool sv sm [] p).2) := rfl
    rw [ih (updateSwapsPool sv sm [] p).1 sm (acc ++ (updateSwapsPool sv sm [] p).2),
      ih (updateSwapsPool sv sm [] p).1 sm (updateSwapsPool sv sm [] p).2]
    simp

theorem updateSwapsGo_ids :
    ∀ (pools : List Pool) (sv : List Swap) (sm : List (SwapId × Nat)), VecWF sv sm →
    ((updateSwapsGo sv sm pools []).1).length = sv.length ∧
      (∀ j, (((updateSwapsGo sv sm pools []).1).getD j default).id = (sv.getD j default).id) ∧
      VecWF (updateSwapsGo sv sm pools []).1 sm := by
  intro pools
  induction pools with
  | nil => intro sv sm hwf; exact ⟨rfl, fun j => rfl, hwf⟩
  | cons p rest ih =>
    intro sv sm hwf
    have hstep := updateSwapsPool_ids sv sm p hwf
    have hwf1 := updateSwapsPool_wf sv sm p hwf
    have hrec := ih (updateSwapsPool sv sm [] p).1 sm hwf1
    have hvec : (updateSwapsGo sv sm (p :: rest) []).1 =
        (updateSwapsGo (updateSwapsPool sv sm [] p).1 sm rest []).1 := by
      rw [updateSwapsGo, updateSwapsGo_acc]
    refine ⟨?_, ?_, ?_⟩
    · rw [hvec, hrec.1, hstep.1]
    · intro j
      rw [hvec, hrec.2.1 j, hstep.2 j]
    · rw [hvec]
      exact hrec.2.2

theorem updateSwapsGo_untouched :
    ∀ (pools : List Pool) (sv : List Swap) (sm : List (SwapId × Nat)) (i : Nat),
    (∀ k, alLookup sm k = some i → k ∉ knownUpdatedIds sm pools) →
    ((updateSwapsGo sv sm pools []).1).getD i default = sv.getD i default := by
  intro pools
  induction pools with
  | nil => intro sv sm i _; rfl
  | cons p rest ih =>
    intro sv sm i hcond
    have hvec : (updateSwapsGo sv sm (p :: rest) []).1 =
        (updateSwapsGo (updateSwapsPool sv sm [] p).1 sm rest []).1 := by
      rw [updateSwapsGo, updateSwapsGo_acc]
    have hrestc : ∀ k, alLookup sm k = some i → k ∉ knownUpdatedIds sm rest := by
      intro k hk hmem
      exact hcond k hk (by
        rw [knownUpdatedIds_cons]
        exact List.mem_append.mpr (Or.inr hmem))
    rw [hvec, ih _ sm i hrestc]
    have hfne : ∀ j, alLookup sm (Swap.forward p).id = some j → j ≠ i := by
      intro j hj hji
      subst hji
      exact hcond _ hj
        (mem_knownUpdatedIds_intro (List.mem_cons_self p rest) (Or.inl rfl)
          (by rw [hj]; rfl))
    have hrne : ∀ j, alLookup sm (Swap.reverse p).id = some j → j ≠ i := by
      intro j hj hji
      subst hji
      exact hcond _ hj
        (mem_knownUpdatedIds_intro (List.mem_cons_self p rest) (Or.inr rfl)
          (by rw [hj]; rfl))
    cases hf : alLookup sm (Swap.forward p).id with
    | none =>
      cases hr : alLookup sm (Swap.reverse p).id with
      | none => simp [updateSwapsPool, hf, hr]
      | some ir =>
        have : (updateSwapsPool sv sm [] p).1 = sv.set ir (Swap.reverse p) := by
          simp [updateSwapsPool, hf, hr]
        rw [this, getD_set_ne _ _ (hrne ir hr)]
    | some if1 =>
      cases hr : alLookup sm (Swap.reverse p).id with
      | none =>
        have : (updateSwapsPool sv sm [] p).1 = sv.set if1 (Swap.forward p) := by
          simp [updateSwapsPool, hf, hr]
        rw [this, getD_set_ne _ _ (hfne if1 hf)]
      | some ir =>
        have : (updateSwapsPool sv sm [] p).1 =
            (sv.set if1 (Swap.forward p)).set ir (Swap.reverse p) := by
          simp [updateSwapsPool, hf, hr]
        rw [this, getD_set_ne _ _ (hrne ir hr), getD_set_ne _ _ (hfne if1 hf)]

theorem updateSwapsGo_members :
    ∀ (pools : List Pool) (sv : List Swap) (sm : List (SwapId × Nat)) (u : Swap),
    u ∈ (updateSwapsGo sv sm pools []).2 →
    ∃ p, p ∈ pools ∧ (u = Swap.forward p ∨ u = Swap.reverse p) ∧
      (alLookup sm u.id).isSome = true := by
  intro pools
  induction pools with
  | nil => intro sv sm u h; exact absurd h (by simp [updateSwapsGo])
  | cons p rest ih =>
    intro sv sm u hu
    have hgo : (updateSwapsGo sv sm (p :: rest) []).2 =
        (updateSwapsPool sv sm [] p).2 ++
          (updateSwapsGo (updateSwapsPool sv sm [] p).1 sm rest []).2 := by
      rw [updateSwapsGo, updateSwapsGo_acc]
    rw [hgo] at hu
    rcases List.mem_append.mp hu with hu1 | hu1
    · have : ∃ q, (q = Swap.forward p ∨ q = Swap.reverse p) ∧ q = u ∧
          (alLookup sm u.id).isSome = true := by
        cases hf : alLookup sm (Swap.forward p).id with
        | none =>
          cases hr : alLookup sm (Swap.reverse p).id with
          | none => simp [updateSwapsPool, hf, hr] at hu1
          | some ir =>
            have : u = Swap.reverse p := by
              simpa [updateSwapsPool, hf, hr] using hu1
            exact ⟨u, Or.inr this, rfl, by rw [this, hr]; rfl⟩
        | some if1 =>
          cases hr : alLookup sm (Swap.reverse p).id with
          | none =>
            have : u = Swap.forward p := by
              simpa [updateSwapsPool, hf, hr] using hu1
            exact ⟨u, Or.inl this, rfl, by rw [this, hf]; rfl⟩
          | some ir =>
            have : u = Swap.forward p ∨ u = Swap.reverse p := by
              simpa [updateSwapsPool, hf, hr] using hu1
            rcases this with h | h
            · exact ⟨u, Or.inl h, rfl, by rw [h, hf]; rfl⟩
            · exact ⟨u, Or.inr h, rfl, by rw [h, hr]; rfl⟩
      obtain ⟨q, hq, rfl, hsome⟩ := this
      exact ⟨p, List.mem_cons_self p rest, hq, hsome⟩
    · obtain ⟨p', hp', hq, hsome⟩ := ih _ sm u hu1
      exact ⟨p', List.mem_cons_of_mem _ hp', hq, hsome⟩

theorem updateSwapsGo_written :
    ∀ (pools : List Pool) (sv : List Swap) (sm : List (SwapId × Nat)), VecWF sv sm →
    ∀ (sid : SwapId) (i : Nat), alLookup sm sid = some i →
    sid ∈ knownUpdatedIds sm pools →
    ∃ u, u ∈ (updateSwapsGo sv sm pools []).2 ∧ u.id = sid ∧
      ((updateSwapsGo sv sm pools []).1).getD i default = u := by
  intro pools
  induction pools with
  | nil => intro sv sm _ sid i _ hmem; exact absurd hmem (by simp [knownUpdatedIds])
  | cons p rest ih =>
    intro sv sm hwf sid i hlook hmem
    have hPwf := updateSwapsPool_wf sv sm p hwf
    have hvec : (updateSwapsGo sv sm (p :: rest) []).1 =
        (updateSwapsGo (updateSwapsPool sv sm [] p).1 sm rest []).1 := by
      rw [updateSwapsGo, updateSwapsGo_acc]
    have hupd : (updateSwapsGo sv sm (p :: rest) []).2 =
        (updateSwapsPool sv sm [] p).2 ++
          (updateSwapsGo (updateSwapsPool sv sm [] p).1 sm rest []).2 := by
      rw [updateSwapsGo, updateSwapsGo_acc]
    by_cases hrest : sid ∈ knownUpdatedIds sm rest
    · obtain ⟨u, humem, huid, hufinal⟩ := ih _ sm hPwf sid i hlook hrest
      refine ⟨u, ?_, huid, ?_⟩
      · rw [hupd]
        exact List.mem_append.mpr (Or.inr humem)
      · rw [hvec]
        exact hufinal
    · have hmem' : sid ∈
          (if (alLookup sm (Swap.forward p).id).isSome then [(Swap.forward p).id] else []) ++
            (if (alLookup sm (Swap.reverse p).id).isSome then [(Swap.reverse p).id] else []) := by
        rw [knownUpdatedIds_cons] at hmem
        rcases List.mem_append.mp hmem with h | h
        · exact h
        · exact absurd h hrest
      have hkey : ∃ u0, u0 ∈ (updateSwapsPool sv sm [] p).2 ∧ u0.id = sid ∧
          (updateSwapsPool sv sm [] p).1.getD i default = u0 := by
        rcases List.mem_append.mp hmem' with hside | hside
        · -- sid is the forward swap's id
          have hf_is : (alLookup sm (Swap.forward p).id).isSome = true := by
            by_cases hb : (alLookup sm (Swap.forward p).id).isSome = true
            · exact hb
            · rw [if_neg hb] at hside
              exact absurd hside (by simp)
          have hsid : sid = (Swap.forward p).id := by
            rw [if_pos hf_is] at hside
            exact List.mem_singleton.mp hside
          have hf : alLookup sm (Swap.forward p).id = some i := by
            rw [← hsid]
            exact hlook
          have hlt : i < sv.length := (hwf _ (alLookup_mem sm _ i hf)).1
          cases hr : alLookup sm (Swap.reverse p).id with
          | none =>
            refine ⟨Swap.forward p, by simp [updateSwapsPool, hf, hr], hsid.symm, ?_⟩
            have : (updateSwapsPool sv sm [] p).1 = sv.set i (Swap.forward p) := by
              simp [updateSwapsPool, hf, hr]
            rw [this, getD_set_self _ _ _ hlt]
          | some ir =>
            have hP1 : (updateSwapsPool sv sm [] p).1 =
                (sv.set i (Swap.forward p)).set ir (Swap.reverse p) := by
              simp [updateSwapsPool, hf, hr]
            by_cases hiri : ir = i
            · -- both writes land on the same slot, so the two ids coincide
              subst hiri
              have hidr : (sv.getD ir default).id = (Swap.reverse p).id :=
                (hwf _ (alLookup_mem sm _ ir hr)).2
              have hidf : (sv.getD ir default).id = (Swap.forward p).id :=
                (hwf _ (alLookup_mem sm _ ir hf)).2
              refine ⟨Swap.reverse p, by simp [updateSwapsPool, hf, hr], ?_, ?_⟩
              · rw [← hidr, hidf, ← hsid]
              · rw [hP1, getD_set_self _ _ _ (by rw [List.length_set]; exact hlt)]
            · refine ⟨Swap.forward p, by simp [updateSwapsPool, hf, hr], hsid.symm, ?_⟩
              rw [hP1, getD_set_ne _ _ hiri, getD_set_self _ _ _ hlt]
        · -- sid is the reverse swap's id; it is written last at slot i
          have hr_is : (alLookup sm (Swap.reverse p).id).isSome = true := by
            by_cases hb : (alLookup sm (Swap.reverse p).id).isSome = true
            · exact hb
            · rw [if_neg hb] at hside
              exact absurd hside (by simp)
          have hsid : sid = (Swap.reverse p).id := by
            rw [if_pos hr_is] at hside
            exact List.mem_singleton.mp hside
          have hr : alLookup sm (Swap.reverse p).id = some i := by
            rw [← hsid]
            exact hlook
          have hlt : i < sv.length := (hwf _ (alLookup_mem sm _ i hr)).1
          cases hf : alLookup sm (Swap.forward p).id with
          | none =>
            refine ⟨Swap.reverse p, by simp [updateSwapsPool, hf, hr], hsid.symm, ?_⟩
            have : (updateSwapsPool sv sm [] p).1 = sv.set i (Swap.reverse p) := by
              simp [updateSwapsPool, hf, hr]
            rw [this, getD_set_self _ _ _ hlt]
          | some if1 =>
            refine ⟨Swap.reverse p, by simp [updateSwapsPool, hf, hr], hsid.symm, ?_⟩
            have : (updateSwapsPool sv sm [] p).1 =
                (sv.set if1 (Swap.forward p)).set i (Swap.reverse p) := by
              simp [updateSwapsPool, hf, hr]
            rw [this, getD_set_self _ _ _ (by rw [List.length_set]; exact hlt)]
      obtain ⟨u0, hu0mem, hu0id, hu0val⟩ := hkey
      have huntouched :
          (updateSwapsGo (updateSwapsPool sv sm [] p).1 sm rest []).1.getD i default =
            (updateSwapsPool sv sm [] p).1.getD i default := by
        apply updateSwapsGo_untouched rest _ sm i
        intro k hk hkmem
        have h1 : (sv.getD i default).id = k := (hwf _ (alLookup_mem sm _ i hk)).2
        have h2 : (sv.getD i default).id = sid := (hwf _ (alLookup_mem sm _ i hlook)).2
        have hks : k = sid := h1.symm.trans h2
        exact hrest (hks ▸ hkmem)
      refine ⟨u0, ?_, hu0id, ?_⟩
      · rw [hupd]
        exact List.mem_append.mpr (Or.inl hu0mem)
      · rw [hvec, huntouched, hu0val]

/-- The per-swap filter condition of `update_cycles`, evaluated against the
post-update swap table, holds exactly when the swap's id belongs to an
updated pool already known to the world. -/
theorem update_cond_eq (sv : List Swap) (sm : List (SwapId × Nat)) (pools : List Pool)
    (hwf : VecWF sv sm) (sid : SwapId) :
    (match alLookup sm sid with
     | some i => anyEqv (updateSwapsGo sv sm pools []).2
         (((updateSwapsGo sv sm pools []).1).getD i default)
     | none => false) = decide (sid ∈ knownUpdatedIds sm pools) := by
  cases hl : alLookup sm sid with
  | none =>
    have hnm : sid ∉ knownUpdatedIds sm pools := by
      intro hmem
      have hs := mem_knownUpdatedIds_isSome hmem
      rw [hl] at hs
      exact absurd hs (by simp)
    simp [hnm]
  | some i =>
    show anyEqv (updateSwapsGo sv sm pools []).2
        (((updateSwapsGo sv sm pools []).1).getD i default) =
      decide (sid ∈ knownUpdatedIds sm pools)
    by_cases hmem : sid ∈ knownUpdatedIds sm pools
    · obtain ⟨u, humem, huid, hufinal⟩ := updateSwapsGo_written pools sv sm hwf sid i hl hmem
      rw [hufinal]
      have hany : anyEqv (updateSwapsGo sv sm pools []).2 u = true :=
        List.any_eq_true.mpr ⟨u, humem, swapEqv_refl u⟩
      rw [hany]
      simp [hmem]
    · have hfalse : anyEqv (updateSwapsGo sv sm pools []).2
          (((updateSwapsGo sv sm pools []).1).getD i default) = false := by
        cases hany : anyEqv (updateSwapsGo sv sm pools []).2
            (((updateSwapsGo sv sm pools []).1).getD i default) with
        | false => rfl
        | true =>
          exfalso
          obtain ⟨u, humem, heqv⟩ := List.any_eq_true.mp hany
          have hid1 : u.id = (((updateSwapsGo sv sm pools []).1).getD i default).id :=
            swapEqv_id heqv
          have hid2 := (updateSwapsGo_ids pools sv sm hwf).2.1 i
          have hid3 : (sv.getD i default).id = sid := (hwf _ (alLookup_mem sm _ i hl)).2
          have huid : u.id = sid := by rw [hid1, hid2, hid3]
          obtain ⟨p, hp, hform, hsome⟩ := updateSwapsGo_members pools sv sm u humem
          have : u.id ∈ knownUpdatedIds sm pools := mem_knownUpdatedIds_intro hp hform hsome
          rw [huid] at this
          exact hmem this
      rw [hfalse]
      simp [hmem]

theorem world_update_filter_eq (w : World) (pools : List Pool) (hwf : w.WF) :
    (w.update pools).2.cycles =
      w.cycleVec.filter (fun c => c.swaps.any fun s =>
        decide (s.id ∈ knownUpdatedIds w.swapMap pools)) := by
  have hrfl : (w.update pools).2.cycles =
      w.cycleVec.filter (fun c => c.swaps.any fun s =>
        match alLookup w.swapMap s.id with
        | some i => anyEqv (updateSwapsGo w.swapVec w.swapMap pools []).2
            (((updateSwapsGo w.swapVec w.swapMap pools []).1).getD i default)
        | none => false) := rfl
  rw [hrfl]
  apply List.filter_congr
  intro c _
  exact congrArg c.swaps.any
    (funext fun s => update_cond_eq w.swapVec w.swapMap pools hwf s.id)

/-- C2: for every well-formed world and update set, `World::update` returns
exactly those pre-enumerated cycles containing at least one swap whose id
belongs to an updated pool already known to the world (`knownUpdatedIds`
lists no id of an unknown pool, so unknown pools are silently ignored),
and an empty update set yields a `WorldUpdate` with no cycles. -/
theorem world_update_touched_cycles (w : World) (pools : List Pool) (hwf : w.WF) :
    ((w.update pools).2.cycles =
      w.cycleVec.filter (fun c => c.swaps.any fun s =>
        decide (s.id ∈ knownUpdatedIds w.swapMap pools))) ∧
    (w.update []).2.cycles = [] := by
  refine ⟨world_update_filter_eq w pools hwf, ?_⟩
  rw [world_update_filter_eq w [] hwf]
  have hfalse : ∀ c ∈ w.cycleVec,
      (c.swaps.any fun s => decide (s.id ∈ knownUpdatedIds w.swapMap [])) = false := by
    intro c _
    simp [knownUpdatedIds]
  rw [List.filter_congr hfalse]
  exact List.filter_false w.cycleVec

/-- Witness for C2 at the world over `F1:(A,B,100,200)`, `F2:(A,B,100,300)`
updated with `F1:(100,400)`: the world is well-formed and the filter
characterization holds. -/
theorem world_update_touched_cycles_witness :
    (worldNew [poolF1, poolF2]).WF ∧
      ((((worldNew [poolF1, poolF2]).update [poolF1new]).2.cycles =
        (worldNew [poolF1, poolF2]).cycleVec.filter (fun c => c.swaps.any fun s =>
          decide (s.id ∈ knownUpdatedIds (worldNew [poolF1, poolF2]).swapMap [poolF1new]))) ∧
      ((worldNew [poolF1, poolF2]).update []).2.cycles = []) :=
  ⟨by unfold World.WF VecWF; decide,
    world_update_touched_cycles (worldNew [poolF1, poolF2]) [poolF1new]
      (by unfold World.WF VecWF; decide)⟩

/-! ### C9 — enumeration determinism and the first-swap-only sort -/

theorem cycleLt_key (c d : Cycle) : Cycle.lt c d = keyLt c.firstKey d.firstKey := rfl

theorem cycleLt_asymm {c d : Cycle} (h : Cycle.lt c d = true) : Cycle.lt d c = false := by
  rw [cycleLt_key] at h ⊢
  exact keyLt_asymm h

theorem cycleLt_trans {c d e : Cycle} (h1 : Cycle.lt c d = true) (h2 : Cycle.lt d e = true) :
    Cycle.lt c e = true := by
  rw [cycleLt_key] at h1 h2 ⊢
  exact keyLt_trans h1 h2

theorem swapFirstTwo_perm {α : Type} (l : List α) : (swapFirstTwo l).Perm l := by
  match l with
  | [] => exact List.Perm.refl _
  | [a] => exact List.Perm.refl _
  | a :: b :: rest => exact List.Perm.swap a b rest

theorem insertSorted_perm (x : Cycle) :
    ∀ (l : List Cycle), (insertSorted Cycle.lt x l).Perm (x :: l) := by
  intro l
  induction l with
  | nil => exact List.Perm.refl _
  | cons y ys ih =>
    rw [insertSorted]
    by_cases hxy : Cycle.lt x y = true
    · rw [if_pos hxy]
    · rw [if_neg hxy]
      exact (ih.cons y).trans (List.Perm.swap x y ys)

theorem sortCycles_perm (l : List Cycle) : (sortCycles l).Perm l := by
  have hgen : ∀ (t acc : List Cycle),
      (List.foldl (fun acc x => insertSorted Cycle.lt x acc) acc t).Perm (acc ++ t) := by
    intro t
    induction t with
    | nil => intro acc; simp
    | cons x rest ih =>
      intro acc
      rw [List.foldl_cons]
      refine (ih (insertSorted Cycle.lt x acc)).trans ?_
      refine (((insertSorted_perm x acc).append_right rest).trans ?_)
      exact List.perm_middle.symm
  simpa [sortCycles, sortBy] using hgen l []

theorem insertSorted_pairwise (x : Cycle) :
    ∀ (l : List Cycle), l.Pairwise (fun a b => Cycle.lt b a = false) →
    (insertSorted Cycle.lt x l).Pairwise (fun a b => Cycle.lt b a = false) := by
  intro l
  induction l with
  | nil => intro _; simp [insertSorted]
  | cons y ys ih =>
    intro hp
    rcases List.pairwise_cons.mp hp with ⟨hy_all, hys⟩
    rw [insertSorted]
    by_cases hxy : Cycle.lt x y = true
    · rw [if_pos hxy]
      refine List.pairwise_cons.mpr ⟨?_, hp⟩
      intro z hz
      rcases List.mem_cons.mp hz with rfl | hz2
      · exact cycleLt_asymm hxy
      · cases hzx : Cycle.lt z x with
        | false => rfl
        | true =>
          have hcontr := hy_all z hz2
          rw [cycleLt_trans hzx hxy] at hcontr
          exact absurd hcontr (by simp)
    · rw [if_neg hxy]
      have hxy' : Cycle.lt x y = false := by
        cases h : Cycle.lt x y
        · rfl
        · exact absurd h hxy
      refine List.pairwise_cons.mpr ⟨?_, ih hys⟩
      intro z hz
      rcases List.mem_cons.mp ((insertSorted_perm x ys).mem_iff.mp hz) with rfl | hz2
      · exact hxy'
      · exact hy_all z hz2

theorem sortCycles_pairwise (l : List Cycle) :
    (sortCycles l).Pairwise (fun a b => Cycle.lt b a = false) := by
  have hgen : ∀ (t acc : List Cycle), acc.Pairwise (fun a b => Cycle.lt b a = false) →
      (List.foldl (fun acc x => insertSorted Cycle.lt x acc) acc t).Pairwise
        (fun a b => Cycle.lt b a = false) := by
    intro t
    induction t with
    | nil => intro acc h; simpa using h
    | cons x rest ih =>
      intro acc h
      rw [List.foldl_cons]
      exact ih _ (insertSorted_pairwise x acc h)
  simpa [sortCycles, sortBy] using hgen l [] (by simp)

theorem strictSorted_perm_eq :
    ∀ (l1 l2 : List Cycle), l1.Perm l2 →
    l1.Pairwise (fun a b => Cycle.lt a b = true) →
    l2.Pairwise (fun a b => Cycle.lt a b = true) → l1 = l2 := by
  intro l1
  induction l1 with
  | nil =>
    intro l2 hperm _ _
    exact hperm.nil_eq
  | cons a t1 ih =>
    intro l2 hperm hp1 hp2
    cases l2 with
    | nil =>
      exfalso
      have hlen := hperm.length_eq
      simp at hlen
    | cons b t2 =>
      rcases List.pairwise_cons.mp hp1 with ⟨ha_all, ht1⟩
      rcases List.pairwise_cons.mp hp2 with ⟨hb_all, ht2⟩
      by_cases hab : a = b
      · subst hab
        rw [ih t2 hperm.cons_inv ht1 ht2]
      · exfalso
        have hamem : a ∈ b :: t2 := hperm.mem_iff.mp (List.mem_cons_self a t1)
        have hat2 : a ∈ t2 := by
          rcases List.mem_cons.mp hamem with h | h
          · exact absurd h hab
          · exact h
        have hbmem : b ∈ a :: t1 := hperm.mem_iff.mpr (List.mem_cons_self b t2)
        have hbt1 : b ∈ t1 := by
          rcases List.mem_cons.mp hbmem with h | h
          · exact absurd h.symm hab
          · exact h
        have h1 := ha_all b hbt1
        have h2 := hb_all a hat2
        rw [cycleLt_asymm h1] at h2
        exact absurd h2 (by simp)

/-- C9 counterexample: the cycle order produced by `World::new` is NOT
independent of the hash-set iteration order. For `c9pools` the enumerator's
set holds two distinct cycles sharing the same first swap (`A→B` through
`F1`); `sort_by` under the first-swap-only `Ord` is stable, so two runs
whose `HashSet<Cycle>` iterates in different orders (here: discovery order
versus the same set with its first two cycles transposed) produce different
sorted cycle lists. -/
theorem cycle_sort_depends_on_iteration_order :
    (swapFirstTwo c9enum).Perm c9enum ∧
      sortCycles (swapFirstTwo c9enum) ≠ sortCycles c9enum ∧
      (sortCycles (swapFirstTwo c9enum)).headD ⟨[], none⟩ ≠
        (sortCycles c9enum).headD ⟨[], none⟩ :=
  ⟨swapFirstTwo_perm c9enum, by decide, by decide⟩

/-- C9 amended: over any pool set, the enumerated cycle set is
deterministic as a multiset — any iteration order of the enumerator's hash
set yields, after the final sort, a permutation of the same cycles — and
the sorted list itself is deterministic whenever distinct enumerated cycles
have pairwise distinct first swaps (the `Cycle` comparison consults only
the first swap, so ties between cycles sharing it are ordered by hash-set
iteration order). -/
theorem cycle_enumeration_deterministic_up_to_ties (pools : List Pool) (order : List Cycle)
    (hperm : order.Perm (enumerateCycles (worldBase pools))) :
    (sortCycles order).Perm (sortCycles (enumerateCycles (worldBase pools))) ∧
      ((enumerateCycles (worldBase pools)).Pairwise
          (fun c d => Cycle.firstKey c ≠ Cycle.firstKey d) →
        sortCycles order = sortCycles (enumerateCycles (worldBase pools))) := by
  have hp1 : (sortCycles order).Perm order := sortCycles_perm order
  have hp2 : (sortCycles (enumerateCycles (worldBase pools))).Perm
      (enumerateCycles (worldBase pools)) := sortCycles_perm _
  have hall : (sortCycles order).Perm (sortCycles (enumerateCycles (worldBase pools))) :=
    (hp1.trans hperm).trans hp2.symm
  refine ⟨hall, ?_⟩
  intro hdist
  have hd2 : (sortCycles (enumerateCycles (worldBase pools))).Pairwise
      (fun c d => Cycle.firstKey c ≠ Cycle.firstKey d) :=
    (hp2.pairwise_iff (fun {_ _} h he => h he.symm)).mpr hdist
  have hd1 : (sortCycles order).Pairwise
      (fun c d => Cycle.firstKey c ≠ Cycle.firstKey d) :=
    (hall.pairwise_iff (fun {_ _} h he => h he.symm)).mpr hd2
  have hstrict : ∀ (l : List Cycle), l.Pairwise (fun a b => Cycle.lt b a = false) →
      l.Pairwise (fun c d => Cycle.firstKey c ≠ Cycle.firstKey d) →
      l.Pairwise (fun a b => Cycle.lt a b = true) := by
    intro l hs hd
    refine (hs.and hd).imp ?_
    intro a b hab
    rcases keyLt_connex hab.2 with hlt | hlt
    · rw [cycleLt_key]
      exact hlt
    · rw [← cycleLt_key] at hlt
      rw [hlt] at hab
      exact absurd hab.1 (by simp)
  exact strictSorted_perm_eq _ _ hall
    (hstrict _ (sortCycles_pairwise order) hd1)
    (hstrict _ (sortCycles_pairwise _) hd2)

/-- Witness for the amended C9 at the two-cycle world over
`F1:(A,B,100,200)`, `F2:(A,B,100,300)` (distinct first swaps), with the
transposed iteration order: the sorted lists coincide. -/
theorem cycle_enumeration_deterministic_up_to_ties_witness :
    (sortCycles (swapFirstTwo (enumerateCycles (worldBase [poolF1, poolF2])))).Perm
        (sortCycles (enumerateCycles (worldBase [poolF1, poolF2]))) ∧
      sortCycles (swapFirstTwo (enumerateCycles (worldBase [poolF1, poolF2]))) =
        sortCycles (enumerateCycles (worldBase [poolF1, poolF2])) :=
  ⟨(cycle_enumeration_deterministic_up_to_ties [poolF1, poolF2]
      (swapFirstTwo (enumerateCycles (worldBase [poolF1, poolF2])))
      (swapFirstTwo_perm _)).1,
   (cycle_enumeration_deterministic_up_to_ties [poolF1, poolF2]
      (swapFirstTwo (enumerateCycles (worldBase [poolF1, poolF2])))
      (swapFirstTwo_perm _)).2 (by decide)⟩

end Revm
